import Mathlib

/-!
Verification of the torchsyn dataset tooling (`create_dataset.py`, `view_dataset.py`).

The Python sources are shallowly embedded below.  Text is modelled as
`List Char` (via `String.data`); Python's `str` helpers (`count`, `replace`,
`split`, `strip`, `startswith`, substring membership) are re-implemented on
`List Char` with the exact non-overlapping / left-to-right semantics of
CPython.  Bounded recursion that CPython expresses with cursor arithmetic is
expressed with an explicit fuel argument that is always instantiated with the
input length, which is sufficient and keeps every definition kernel-reducible.

The filesystem is modelled as a directory listing (`List String` of file
names, glob order = listing order; the common directory prefix of the joined
paths is abstracted away) together with a readable-content map
`String → Option String` (`none` = an attempt to open the file raises
`IOError`).  A raised, uncaught Python exception is modelled as
`Except.error`.
-/

/-! ## Python string primitives on `List Char` -/

/-- Python `sub in s` (substring containment). -/
def containsSub (needle : List Char) : List Char → Bool
  | [] => needle.isEmpty
  | c :: t => needle.isPrefixOf (c :: t) || containsSub needle t

/-- Fuel-indexed core of Python `str.count` (non-overlapping, left to right). -/
def countSubF (needle : List Char) : Nat → List Char → Nat
  | 0, _ => 0
  | _ + 1, [] => 0
  | fuel + 1, c :: t =>
    if needle.isPrefixOf (c :: t) then 1 + countSubF needle fuel ((c :: t).drop needle.length)
    else countSubF needle fuel t

/-- Python `s.count(needle)` for a nonempty `needle` (the only way it is called). -/
def countSub (needle hay : List Char) : Nat := countSubF needle hay.length hay

/-- Fuel-indexed core of Python `str.replace` (non-overlapping, left to right). -/
def replaceSubF (old new : List Char) : Nat → List Char → List Char
  | 0, s => s
  | _ + 1, [] => []
  | fuel + 1, c :: t =>
    if old.isPrefixOf (c :: t) then new ++ replaceSubF old new fuel ((c :: t).drop old.length)
    else c :: replaceSubF old new fuel t

/-- Python `s.replace(old, new)` for a nonempty `old` (the only way it is called). -/
def replaceSub (old new s : List Char) : List Char := replaceSubF old new s.length s

/-- Python `s.replace(old, new)` on `String`s. -/
def pyReplace (s old new : String) : String := ⟨replaceSub old.data new.data s.data⟩

/-- Python `s.split(sep)` for a one-character separator. -/
def splitOnChar (sep : Char) : List Char → List (List Char)
  | [] => [[]]
  | c :: t =>
    let r := splitOnChar sep t
    if c = sep then [] :: r else (c :: r.headD []) :: r.tail

/-- Python `s.split("\n")`. -/
def splitNl (s : List Char) : List (List Char) := splitOnChar '\n' s

/-- Python `"\n".join(lines)`. -/
def joinNl : List (List Char) → List Char
  | [] => []
  | [l] => l
  | l :: ls => l ++ '\n' :: joinNl ls

/-- The ASCII whitespace set of Python `str.strip` / `str.isspace`. -/
def isPySpace (c : Char) : Bool :=
  decide (c.toNat = 32) || decide (c.toNat = 9) || decide (c.toNat = 10) ||
  decide (c.toNat = 13) || decide (c.toNat = 11) || decide (c.toNat = 12)

/-- Python `s.strip()` (ASCII whitespace; the inputs scanned here are ASCII). -/
def stripPy (s : List Char) : List Char :=
  ((s.dropWhile isPySpace).reverse.dropWhile isPySpace).reverse

/-- Python `s.startswith(pre)`, with the prefix as first argument. -/
def startsWithSub (pre s : List Char) : Bool := pre.isPrefixOf s

/-- ASCII decimal digit test (Python `str.isdigit` on the ASCII inputs used here). -/
def isDigitC (c : Char) : Bool := decide (48 ≤ c.toNat) && decide (c.toNat ≤ 57)

/-- Python `s.isdigit()`: nonempty and all digits. -/
def isDigitStr (s : List Char) : Bool := !s.isEmpty && s.all isDigitC

/-- Numeric value of a decimal digit string (Python `int(s)` on digit strings). -/
def foldDecimal (s : List Char) : Nat := s.foldl (fun a c => 10 * a + (c.toNat - 48)) 0

/-- Python `os.path.basename` (POSIX): the part after the last `/`. -/
def basenamePy (p : String) : String := ⟨(splitOnChar '/' p.data).getLastD []⟩

/-! ## Marker scanner (`view_dataset.find_inlined_sections`) -/

/-- The transformation-marker literal. -/
def inlinedMarker : List Char := "/* INLINED */".data

/-- The variant-selection marker literal prefix. -/
def variantMarker : List Char := "/* variant".data

/-- The memory-allocation-call literal. -/
def mallocLit : List Char := "malloc".data

/-- One line lets the inner `while` of `find_inlined_sections` continue:
it is not `//`-prefixed (after strip), does not contain `malloc`, is nonempty
after strip, and is not `/*`-prefixed (after strip).  This is the conjunction
of the loop condition and the `if` guard of the Python inner loop. -/
def contLine (l : List Char) : Bool :=
  !startsWithSub "//".data (stripPy l) && !containsSub mallocLit l &&
  !(stripPy l).isEmpty && !startsWithSub "/*".data (stripPy l)

/-- Fuel-indexed inner `while` of `find_inlined_sections`: advance `e` while
`e < len(lines)` and the line continues the region. -/
def scanEndF (lines : List (List Char)) : Nat → Nat → Nat
  | 0, e => e
  | fuel + 1, e =>
    if h : e < lines.length then
      if contLine lines[e] then scanEndF lines fuel (e + 1) else e
    else e

/-- The exclusive end of the region started just before position `e`. -/
def scanEnd (lines : List (List Char)) (e : Nat) : Nat := scanEndF lines lines.length e

/-- Fuel-indexed outer `while` of `find_inlined_sections`: the produced
regions as `(start, end)` index pairs ( `end` exclusive). -/
def scanFromF (lines : List (List Char)) : Nat → Nat → List (Nat × Nat)
  | 0, _ => []
  | fuel + 1, i =>
    if h : i < lines.length then
      if containsSub inlinedMarker lines[i] then
        (i, scanEnd lines (i + 1)) :: scanFromF lines fuel (scanEnd lines (i + 1))
      else scanFromF lines fuel (i + 1)
    else []

/-- All regions of the scan starting at line index `i`. -/
def scanFrom (lines : List (List Char)) (i : Nat) : List (Nat × Nat) :=
  scanFromF lines lines.length i

/-- One element of the list returned by `find_inlined_sections`:
a dict `{"line": start + 1, "code": "\n".join(lines[start:end])}`. -/
structure Sect where
  line : Nat
  code : String
deriving DecidableEq

/-- `view_dataset.find_inlined_sections`: split the code on newlines, start a
region at every line containing `/* INLINED */` reached by the cursor, extend
it with `scanEnd`, and resume the outer scan at the region end. -/
def find_inlined_sections (code : String) : List Sect :=
  let lines := splitNl code.data
  (scanFrom lines 0).map (fun p => ⟨p.1 + 1, ⟨joinNl ((lines.drop p.1).take (p.2 - p.1))⟩⟩)

/-! ## Pair locator and record builder (`create_dataset.py`) -/

/-- The transformed-suffix convention of the generator. -/
def noinlineSuffix : List Char := "_noinline.c".data

/-- One pair returned by `find_program_pairs`. -/
structure ProgramPair where
  inline_path : String
  noinline_path : String
deriving DecidableEq

/-- `glob.glob(os.path.join(dir, "*_noinline.c"))`: the directory entries
matching the pattern, in listing order (`*` does not match a leading dot). -/
def globNoinline (files : List String) : List String :=
  files.filter (fun f => noinlineSuffix.isSuffixOf f.data && !(f.data.head? == some '.'))

/-- `create_dataset.find_program_pairs`: for each `*_noinline.c` entry, the
inline path is obtained by `str.replace("_noinline.c", ".c")` and the pair is
kept iff that path exists in the directory. -/
def find_program_pairs (files : List String) : List ProgramPair :=
  (globNoinline files).filterMap (fun p =>
    let ip := pyReplace p "_noinline.c" ".c"
    if ip ∈ files then some ⟨ip, p⟩ else none)

/-- One dataset record (`create_dataset.create_dataset_entry` dict; all CPython
ints are modelled as `Int`). -/
structure Entry where
  id : Int
  filename : String
  before : String
  after : String
  before_lines : Int
  after_lines : Int
  inlined_ops_count : Int
  variant_count : Int
  line_diff : Int
  created_at : String
deriving DecidableEq

/-- `create_dataset.read_file`: `open(path).read()`; an unreadable path raises
`IOError`, modelled as `Except.error` carrying the path. -/
def read_file (fs : String → Option String) (path : String) : Except String String :=
  match fs path with
  | some s => Except.ok s
  | none => Except.error path

/-- `create_dataset.create_dataset_entry`: read both files and compute the
metadata fields (`ts` abstracts `datetime.now().isoformat()`). -/
def create_dataset_entry (fs : String → Option String) (inline_path noinline_path : String)
    (idx : Int) (ts : String) : Except String Entry := do
  let after_code ← read_file fs inline_path
  let before_code ← read_file fs noinline_path
  Except.ok ⟨idx, basenamePy inline_path, before_code, after_code,
    (countSub "\n".data before_code.data : Nat),
    (countSub "\n".data after_code.data : Nat),
    (countSub inlinedMarker after_code.data : Nat),
    (countSub variantMarker after_code.data : Nat),
    (countSub "\n".data after_code.data : Int) - (countSub "\n".data before_code.data : Int),
    ts⟩

/-- The record-building loop of `create_dataset.main`: strictly sequential,
with no `try`/`except`, so the first raised `IOError` propagates and aborts
the whole build. -/
def buildGo (fs : String → Option String) (ts : String) : Int → List ProgramPair →
    Except String (List Entry)
  | _, [] => Except.ok []
  | idx, p :: rest => do
    let e ← create_dataset_entry fs p.inline_path p.noinline_path idx ts
    let es ← buildGo fs ts (idx + 1) rest
    Except.ok (e :: es)

/-- `create_dataset.main`'s dataset list, built from `enumerate(pairs)`. -/
def buildDataset (fs : String → Option String) (ts : String) (pairs : List ProgramPair) :
    Except String (List Entry) :=
  buildGo fs ts 0 pairs

/-- A pair both of whose files can be read. -/
def readablePair (fs : String → Option String) (p : ProgramPair) : Prop :=
  (fs p.inline_path).isSome = true ∧ (fs p.noinline_path).isSome = true

instance (fs : String → Option String) (p : ProgramPair) : Decidable (readablePair fs p) := by
  unfold readablePair; infer_instance

/-! ## Dataset path resolution and format dispatch (`view_dataset.main`) -/

/-- The fallback probe of `view_dataset.main`: if the requested dataset path
does not exist, try `args.dataset.replace(".json", ".jsonl")`; `ex` models
`os.path.exists`. -/
def resolve_dataset_path (ex : String → Bool) (path : String) : Option String :=
  if ex path then some path
  else
    let p2 := pyReplace path ".json" ".jsonl"
    if ex p2 then some p2 else none

/-! ## Writer format loop (`create_dataset.main` / `save_parquet`) -/

/-- The three output formats of `create_dataset.main`. -/
inductive OutFormat
  | json
  | jsonl
  | parquet
deriving DecidableEq

/-- Abstract outcome of the three writes: whether each write call would
succeed, and whether `import pandas` succeeds inside `save_parquet`. -/
structure WriterEnv where
  jsonOk : Bool
  jsonlOk : Bool
  pandasAvailable : Bool
  parquetOk : Bool

/-- The format section of `create_dataset.main`: three sequential `if`s with
no exception handling except the `ImportError` handler inside `save_parquet`.
Returns the formats whose write was attempted (in program order) and
`some msg` if an uncaught exception aborted the run at that point. -/
def saveOutputs (env : WriterEnv) (formats : List OutFormat) :
    List OutFormat × Option String :=
  let aJ := if OutFormat.json ∈ formats then [OutFormat.json] else []
  if OutFormat.json ∈ formats ∧ env.jsonOk = false then (aJ, some "json write failed")
  else
    let aL := aJ ++ (if OutFormat.jsonl ∈ formats then [OutFormat.jsonl] else [])
    if OutFormat.jsonl ∈ formats ∧ env.jsonlOk = false then (aL, some "jsonl write failed")
    else
      let aP := aL ++ (if OutFormat.parquet ∈ formats then [OutFormat.parquet] else [])
      if OutFormat.parquet ∈ formats ∧ env.pandasAvailable = true ∧ env.parquetOk = false then
        (aP, some "parquet write failed")
      else (aP, none)

/-! ## Interactive browsing (`view_dataset.interactive_mode`) -/

/-- Python `.lower()` restricted to ASCII (the recognised commands are ASCII). -/
def lowerPy (s : List Char) : List Char := s.map Char.toLower

/-- One iteration of the `interactive_mode` command loop on a dataset of `n`
records: returns the new `current`, whether the loop breaks (`q`), and whether
the invalid-index message was printed.  `raw` is the operator input, processed
by `.strip().lower()` as in the source. -/
def interactive_step (n : Nat) (current : Nat) (raw : String) : Nat × Bool × Bool :=
  let cmd := lowerPy (stripPy raw.data)
  if cmd = ['n'] then ((current + 1) % n, false, false)
  else if cmd = ['p'] then ((((current : Int) - 1).emod n).toNat, false, false)
  else if cmd = ['f'] then (current, false, false)
  else if cmd = ['i'] then (current, false, false)
  else if cmd = ['q'] then (current, true, false)
  else if isDigitStr cmd then
    if 0 ≤ (foldDecimal cmd : Int) - 1 ∧ (foldDecimal cmd : Int) - 1 < (n : Int) then
      (((foldDecimal cmd : Int) - 1).toNat, false, false)
    else (current, false, true)
  else (current, false, false)

/-! ## JSON layer (`json.dumps` / `json.dump(indent=2)` / `json.load(s)`)

The records written by `create_dataset.py` are flat objects whose values are
ints and strings, in the fixed key order of the `create_dataset_entry` dict.
The encoder below reproduces `json.dumps(entry, ensure_ascii=False)` (and the
`indent=2` variant used by `save_json`) character by character; the decoder
models `json.load`/`json.loads` restricted to documents of this shape: it is
whitespace-insensitive between tokens and performs full JSON string
unescaping, so it returns exactly what CPython's parser returns on every
document the writer can produce. -/

/-- Lowercase hex digit (CPython `%04x`). -/
def hexDigit (n : Nat) : Char := if n < 10 then Char.ofNat (48 + n) else Char.ofNat (87 + n)

/-- Value of a hex digit character, if any. -/
def hexVal (c : Char) : Option Nat :=
  if 48 ≤ c.toNat ∧ c.toNat ≤ 57 then some (c.toNat - 48)
  else if 97 ≤ c.toNat ∧ c.toNat ≤ 102 then some (c.toNat - 87)
  else if 65 ≤ c.toNat ∧ c.toNat ≤ 70 then some (c.toNat - 55)
  else none

/-- `json.dumps` escaping of one character (`ensure_ascii=False`): the short
escapes of `ESCAPE_DCT`, `\u00xx` for other control characters, everything
else verbatim. -/
def escChar (c : Char) : List Char :=
  if c = '"' then ['\\', '"']
  else if c = '\\' then ['\\', '\\']
  else if c = '\n' then ['\\', 'n']
  else if c = '\r' then ['\\', 'r']
  else if c = '\t' then ['\\', 't']
  else if c = Char.ofNat 8 then ['\\', 'b']
  else if c = Char.ofNat 12 then ['\\', 'f']
  else if c.toNat < 32 then ['\\', 'u', '0', '0', hexDigit (c.toNat / 16), hexDigit (c.toNat % 16)]
  else [c]

/-- `json.dumps` escaping of a string body. -/
def escString : List Char → List Char
  | [] => []
  | c :: t => escChar c ++ escString t

/-- A JSON string literal: `"` + escaped body + `"`. -/
def jstrEnc (s : List Char) : List Char := '"' :: (escString s ++ ['"'])

/-- Decimal digits of a natural number (fuel-indexed; `fuel > n` suffices). -/
def encNatF : Nat → Nat → List Char
  | 0, _ => []
  | fuel + 1, n =>
    if n < 10 then [Char.ofNat (48 + n)]
    else encNatF fuel (n / 10) ++ [Char.ofNat (48 + n % 10)]

/-- Decimal digits of a natural number (CPython `repr` of a nonnegative int). -/
def encNat (n : Nat) : List Char := encNatF (n + 1) n

/-- CPython `repr` of an int, as emitted by `json.dumps`. -/
def encInt (n : Int) : List Char := if n < 0 then '-' :: encNat n.natAbs else encNat n.toNat

/-- The JSON whitespace set skipped between tokens by CPython's parser. -/
def isWsC (c : Char) : Bool :=
  decide (c.toNat = 32) || decide (c.toNat = 9) || decide (c.toNat = 10) || decide (c.toNat = 13)

/-- Skip JSON whitespace. -/
def skipWs : List Char → List Char
  | [] => []
  | c :: t => if isWsC c then skipWs t else c :: t

/-- Parse a decimal natural number (at least one digit). -/
def parseNat (s : List Char) : Option (Nat × List Char) :=
  let ds := s.takeWhile isDigitC
  if ds.isEmpty then none else some (foldDecimal ds, s.drop ds.length)

/-- Parse a JSON integer (optional minus sign). -/
def parseInt (s : List Char) : Option (Int × List Char) :=
  if s.head? = some '-' then (parseNat s.tail).map (fun p => (-(p.1 : Int), p.2))
  else (parseNat s).map (fun p => ((p.1 : Int), p.2))

/-- The decoded character of a one-letter JSON escape (`\x` for `x` in the
CPython `BACKSLASH` table), or `none` for an invalid escape. -/
def escDecode1 (e : Char) : Option Char :=
  if e = '"' then some '"'
  else if e = '\\' then some '\\'
  else if e = '/' then some '/'
  else if e = 'n' then some '\n'
  else if e = 'r' then some '\r'
  else if e = 't' then some '\t'
  else if e = 'b' then some (Char.ofNat 8)
  else if e = 'f' then some (Char.ofNat 12)
  else none

/-- Parse the body of a JSON string literal after the opening quote, with full
escape handling, returning the decoded body and the input after the closing
quote. -/
def parseJStrAux : List Char → Option (List Char × List Char)
  | [] => none
  | c :: t =>
    if c = '"' then some ([], t)
    else if c = '\\' then
      match t with
      | [] => none
      | e :: t2 =>
        if e = 'u' then
          match t2 with
          | h1 :: h2 :: h3 :: h4 :: r => do
            let v1 ← hexVal h1
            let v2 ← hexVal h2
            let v3 ← hexVal h3
            let v4 ← hexVal h4
            let p ← parseJStrAux r
            some (Char.ofNat (((v1 * 16 + v2) * 16 + v3) * 16 + v4) :: p.1, p.2)
          | _ => none
        else do
          let d ← escDecode1 e
          let p ← parseJStrAux t2
          some (d :: p.1, p.2)
    else (parseJStrAux t).map (fun p => (c :: p.1, p.2))

/-- Parse a JSON string literal (used for object keys). -/
def parseKeyStr (s : List Char) : Option (String × List Char) :=
  if s.head? = some '"' then (parseJStrAux s.tail).map (fun p => (⟨p.1⟩, p.2)) else none

/-- A scalar JSON value of the record schema. -/
inductive FVal
  | vi (n : Int)
  | vs (s : String)
deriving DecidableEq

/-- Encode a scalar value as `json.dumps` does. -/
def encVal : FVal → List Char
  | .vi n => encInt n
  | .vs s => jstrEnc s.data

/-- Parse a scalar value, dispatching on the leading character as CPython
does (a quote starts a string, otherwise a number is expected). -/
def parseVal (s : List Char) : Option (FVal × List Char) :=
  let s1 := skipWs s
  if s1.head? = some '"' then (parseJStrAux s1.tail).map (fun p => (FVal.vs ⟨p.1⟩, p.2))
  else (parseInt s1).map (fun p => (FVal.vi p.1, p.2))

/-- The key/value list of one record, in the insertion order of the
`create_dataset_entry` dict (which `json.dumps` preserves). -/
def entryFields (e : Entry) : List (String × FVal) :=
  [("id", .vi e.id), ("filename", .vs e.filename), ("before", .vs e.before),
   ("after", .vs e.after), ("before_lines", .vi e.before_lines),
   ("after_lines", .vi e.after_lines), ("inlined_ops_count", .vi e.inlined_ops_count),
   ("variant_count", .vi e.variant_count), ("line_diff", .vi e.line_diff),
   ("created_at", .vs e.created_at)]

/-- Rebuild an `Entry` from a parsed key/value list (the reader's field
access; requires the writer's schema). -/
def entryOfFields : List (String × FVal) → Option Entry
  | [("id", .vi i), ("filename", .vs fn), ("before", .vs bf), ("after", .vs af),
     ("before_lines", .vi bl), ("after_lines", .vi al), ("inlined_ops_count", .vi ic),
     ("variant_count", .vi vc), ("line_diff", .vi ld), ("created_at", .vs ca)] =>
    some ⟨i, fn, bf, af, bl, al, ic, vc, ld, ca⟩
  | _ => none

/-- Encode a key/value list; `pre` is the whitespace emitted after each `,`
separator (`[' ']` for `json.dumps`, newline + indent for `indent=2`). -/
def encFields (pre : List Char) : List (String × FVal) → List Char
  | [] => []
  | kv :: rest =>
    jstrEnc kv.1.data ++ ':' :: ' ' :: encVal kv.2 ++
      (if rest.isEmpty then [] else ',' :: pre ++ encFields pre rest)

/-- Encode one record object; `pre1` follows the `{`, `pre` follows each `,`,
`close` precedes the `}`. -/
def encodeEntryWith (pre1 pre close : List Char) (e : Entry) : List Char :=
  '{' :: pre1 ++ encFields pre (entryFields e) ++ close ++ ['}']

/-- `json.dumps(entry, ensure_ascii=False)`: one line of the JSONL output. -/
def encodeEntryCompact (e : Entry) : List Char := encodeEntryWith [] [' '] [] e

/-- The object layout of `json.dump(..., indent=2)` at nesting depth 1. -/
def encodeEntryIndented (e : Entry) : List Char :=
  encodeEntryWith ('\n' :: [' ', ' ', ' ', ' ']) ('\n' :: [' ', ' ', ' ', ' '])
    ('\n' :: [' ', ' ']) e

/-- The `indent=2` array items: two-space indent, comma + newline separators. -/
def encItems : List Entry → List Char
  | [] => []
  | e :: rest =>
    ' ' :: ' ' :: encodeEntryIndented e ++
      (if rest.isEmpty then [] else ',' :: '\n' :: encItems rest)

/-- `create_dataset.save_json`: `json.dump(data, f, indent=2,
ensure_ascii=False)` — the exact file contents. -/
def save_json : List Entry → List Char
  | [] => ['[', ']']
  | e :: rest => '[' :: '\n' :: encItems (e :: rest) ++ '\n' :: [']']

/-- `create_dataset.save_jsonl`: one `json.dumps(entry)` per line, each
followed by a newline — the exact file contents. -/
def save_jsonl : List Entry → List Char
  | [] => []
  | e :: rest => encodeEntryCompact e ++ '\n' :: save_jsonl rest

/-- Parse `"key": value` pairs separated by commas. -/
def parseFieldsF : Nat → List Char → Option (List (String × FVal) × List Char)
  | 0, _ => none
  | fuel + 1, s => do
    let (k, s1) ← parseKeyStr (skipWs s)
    let s2 := skipWs s1
    if s2.head? = some ':' then do
      let (v, s4) ← parseVal s2.tail
      let s5 := skipWs s4
      if s5.head? = some ',' then do
        let (fvs, r) ← parseFieldsF fuel s5.tail
        some ((k, v) :: fvs, r)
      else some ([(k, v)], s5)
    else none

/-- Parse one record object (with arbitrary whitespace between tokens). -/
def parseEntry (s : List Char) : Option (Entry × List Char) :=
  if (skipWs s).head? = some '{' then
    (parseFieldsF s.length (skipWs s).tail).bind (fun p =>
      if (skipWs p.2).head? = some '}' then
        (entryOfFields p.1).map (fun e => (e, (skipWs p.2).tail))
      else none)
  else none

/-- Parse a comma-separated sequence of record objects. -/
def parseEntriesF : Nat → List Char → Option (List Entry × List Char)
  | 0, _ => none
  | fuel + 1, s => do
    let (e, r) ← parseEntry s
    let r1 := skipWs r
    if r1.head? = some ',' then do
      let (es, r2) ← parseEntriesF fuel r1.tail
      some (e :: es, r2)
    else some ([e], r1)

/-- `json.load` on an array-of-records document (whitespace-insensitive, as
CPython's parser is); requires the whole input to be consumed. -/
def loadJson (content : List Char) : Option (List Entry) :=
  if (skipWs content).head? = some '[' then
    let t := (skipWs content).tail
    if (skipWs t).head? = some ']' then
      if skipWs (skipWs t).tail = [] then some [] else none
    else
      (parseEntriesF content.length t).bind (fun p =>
        if p.2.head? = some ']' then
          if skipWs p.2.tail = [] then some p.1 else none
        else none)
  else none

/-- The text lines CPython's file iteration yields (`for line in f`), with
the separators removed (`json.loads` ignores the trailing newline kept by
Python's iteration, so dropping it is observationally equal). -/
def pyLines (content : List Char) : List (List Char) :=
  let parts := splitNl content
  if parts.getLast? = some [] then parts.dropLast else parts

/-- `json.loads` on one JSONL line: the record must be followed only by
whitespace. -/
def decodeJsonLine (l : List Char) : Option Entry :=
  (parseEntry l).bind (fun p => if skipWs p.2 = [] then some p.1 else none)

/-- Sequential `Option`-valued map (the `for line in f` loop; any raised
`JSONDecodeError` aborts the load). -/
def mapOpt (f : α → Option β) : List α → Option (List β)
  | [] => some []
  | a :: l => do
    let b ← f a
    let bs ← mapOpt f l
    some (b :: bs)

/-- `view_dataset.load_dataset` on a `.jsonl` path: parse every line. -/
def loadJsonl (content : List Char) : Option (List Entry) :=
  mapOpt decodeJsonLine (pyLines content)

/-- `view_dataset.load_dataset`: dispatch on the `.jsonl` extension. -/
def load_dataset (path : String) (content : List Char) : Option (List Entry) :=
  if ".jsonl".data.isSuffixOf path.data then loadJsonl content else loadJson content

/-! ## Concrete instances used by counterexamples and witnesses -/

/-- A pair list whose middle pair has an unreadable transformed file. -/
def c1pairs : List ProgramPair :=
  [⟨"p1.c", "p1_noinline.c"⟩, ⟨"p2.c", "p2_noinline.c"⟩, ⟨"p3.c", "p3_noinline.c"⟩]

/-- Readable contents for every `c1pairs` file except those of the middle pair. -/
def c1fs : String → Option String := fun p =>
  if p = "p1.c" then some "a\n"
  else if p = "p1_noinline.c" then some "b\n"
  else if p = "p3.c" then some "c\n"
  else if p = "p3_noinline.c" then some "d\n"
  else none

/-- A directory with one matched pair and no unmatched transformed file. -/
def c2dirA : List String := ["a_noinline.c", "a.c"]

/-- The same directory plus one unmatched transformed file. -/
def c2dirB : List String := ["a_noinline.c", "a.c", "b_noinline.c"]

/-- Transformed text whose second line carries a marker inside the region
begun on the first line. -/
def c3code : String := "x /* INLINED */\ny /* INLINED */ z\n\nrest"

/-- Contents of `a.c`: two marker lines, one variant line, six newlines. -/
def c6after : String :=
  "int a;\n/* INLINED */ t1 = w1 * x;\n/* INLINED */ t2 = t1 + b1;\n/* variant 0 */ y = relu(t2);\nreturn;\nend\n"

/-- Contents of `a_noinline.c`: three newlines. -/
def c6before : String := "int a;\ny = f(x);\nreturn;\n"

/-- The directory listing of the end-to-end scenario. -/
def c6files : List String := ["a.c", "a_noinline.c"]

/-- Readable contents of the end-to-end scenario. -/
def c6fs : String → Option String := fun p =>
  if p = "a.c" then some c6after else if p = "a_noinline.c" then some c6before else none

/-- A filesystem on which only `d.json` exists. -/
def c7exists : String → Bool := fun p => p == "d.json"

/-! ## General helper lemmas -/

theorem char_eq_iff_toNat (c d : Char) : c = d ↔ c.toNat = d.toNat := by
  constructor
  · intro h; rw [h]
  · intro h; exact Char.ext (UInt32.ext h)

theorem isPrefixOf_append_self (l r : List Char) : l.isPrefixOf (l ++ r) = true := by
  induction l with
  | nil => cases r <;> rfl
  | cons c t ih => simp [List.isPrefixOf, ih]

theorem countSubF_singleton (a : Char) :
    ∀ fuel l, l.length ≤ fuel → countSubF [a] fuel l = l.count a := by
  intro fuel
  induction fuel with
  | zero =>
    intro l hl
    rw [List.length_eq_zero.mp (Nat.le_zero.mp hl)]
    rfl
  | succ f ih =>
    intro l hl
    cases l with
    | nil => rfl
    | cons c t =>
      have ht : t.length ≤ f := by simpa using hl
      by_cases h : a = c
      · subst h
        have h1 : [a].isPrefixOf (a :: t) = true := by simp [List.isPrefixOf]
        have h2 : countSubF [a] (f + 1) (a :: t) = 1 + countSubF [a] f t := by
          simp [countSubF, h1]
        rw [h2, ih t ht, List.count_cons]
        simp
        omega
      · have h1 : [a].isPrefixOf (c :: t) = false := by
          simp [List.isPrefixOf]
          exact fun h2 => h h2
        have h2 : countSubF [a] (f + 1) (c :: t) = countSubF [a] f t := by
          simp [countSubF, h1]
        rw [h2, ih t ht, List.count_cons]
        simp [h]
        intro h2
        exact absurd h2.symm h

theorem countSub_newline (l : List Char) : countSub ['\n'] l = l.count '\n' :=
  countSubF_singleton '\n' l.length l (le_refl _)

theorem create_dataset_entry_ok (fs : String → Option String) (ip np : String) (idx : Int)
    (ts : String) (a b : String) (ha : fs ip = some a) (hb : fs np = some b) :
    create_dataset_entry fs ip np idx ts = Except.ok ⟨idx, basenamePy ip, b, a,
      (countSub "\n".data b.data : Nat), (countSub "\n".data a.data : Nat),
      (countSub inlinedMarker a.data : Nat), (countSub variantMarker a.data : Nat),
      (countSub "\n".data a.data : Int) - (countSub "\n".data b.data : Int), ts⟩ := by
  unfold create_dataset_entry read_file
  rw [ha, hb]
  rfl

/-! ## Claim theorems -/

/-- Claim C4: for readable, non-empty artifact pairs the Record Builder sets
both line-count fields to the number of newline characters of the
corresponding text and sets the line delta to exactly
`transformed_line_count - original_line_count`. -/
theorem c4_line_counts (fs : String → Option String) (ip np : String) (idx : Int) (ts : String)
    (after before : String)
    (hA : fs ip = some after) (hB : fs np = some before)
    (hANE : after ≠ "") (hBNE : before ≠ "") :
    ∃ e, create_dataset_entry fs ip np idx ts = Except.ok e ∧
      e.after_lines = (after.data.count '\n' : Int) ∧
      e.before_lines = (before.data.count '\n' : Int) ∧
      e.line_diff = e.after_lines - e.before_lines := by
  refine ⟨_, create_dataset_entry_ok fs ip np idx ts after before hA hB, ?_, ?_, ?_⟩
  · simp only [countSub_newline]
  · simp only [countSub_newline]
  · rfl

/-- Witness for C4 at a concrete readable, non-empty pair. -/
theorem c4_line_counts_witness :
    ∃ e, create_dataset_entry c6fs "a.c" "a_noinline.c" 0 "t0" = Except.ok e ∧
      e.after_lines = (c6after.data.count '\n' : Int) ∧
      e.before_lines = (c6before.data.count '\n' : Int) ∧
      e.line_diff = e.after_lines - e.before_lines :=
  c4_line_counts c6fs "a.c" "a_noinline.c" 0 "t0" c6after c6before rfl rfl
    (by decide) (by decide)

/-- Claim C9: a digit command whose 1-based target is outside `1..n` reports
the invalid-index message, leaves the position unchanged, and does not quit
the loop. -/
theorem c9_jump_out_of_range (n current : Nat) (raw : String)
    (hd : isDigitStr (lowerPy (stripPy raw.data)) = true)
    (hr : ¬(1 ≤ foldDecimal (lowerPy (stripPy raw.data)) ∧
            foldDecimal (lowerPy (stripPy raw.data)) ≤ n)) :
    interactive_step n current raw = (current, false, true) := by
  unfold interactive_step
  set cmd := lowerPy (stripPy raw.data) with hcmd
  have hne : ∀ c : Char, isDigitC c = false → cmd ≠ [c] := by
    intro c hc h
    rw [h] at hd
    simp [isDigitStr, hc] at hd
  rw [if_neg (hne 'n' (by decide)), if_neg (hne 'p' (by decide)),
    if_neg (hne 'f' (by decide)), if_neg (hne 'i' (by decide)),
    if_neg (hne 'q' (by decide)), if_pos hd, if_neg]
  intro hin
  exact hr (by omega)

/-- Witness for C9: jump-to-index 5 on a 3-record dataset. -/
theorem c9_jump_out_of_range_witness : interactive_step 3 0 "5" = (0, false, true) :=
  c9_jump_out_of_range 3 0 "5" (by decide) (by decide)

theorem replaceSubF_nil (old new : List Char) (fuel : Nat) :
    replaceSubF old new fuel [] = [] := by
  cases fuel <;> rfl

theorem replaceSubF_fuel_congr (old new : List Char) (hold : old ≠ []) :
    ∀ n s f1 f2, s.length ≤ n → s.length ≤ f1 → s.length ≤ f2 →
    replaceSubF old new f1 s = replaceSubF old new f2 s := by
  intro n
  induction n with
  | zero =>
    intro s f1 f2 hn _ _
    rw [List.length_eq_zero.mp (Nat.le_zero.mp hn), replaceSubF_nil, replaceSubF_nil]
  | succ m ih =>
    intro s f1 f2 hn h1 h2
    cases s with
    | nil => rw [replaceSubF_nil, replaceSubF_nil]
    | cons c t =>
      obtain ⟨a, rfl⟩ : ∃ a, f1 = a + 1 := by
        cases f1 with
        | zero => simp at h1
        | succ a => exact ⟨a, rfl⟩
      obtain ⟨b, rfl⟩ : ∃ b, f2 = b + 1 := by
        cases f2 with
        | zero => simp at h2
        | succ b => exact ⟨b, rfl⟩
      obtain ⟨d, olds, rfl⟩ : ∃ d olds, old = d :: olds := by
        cases old with
        | nil => exact absurd rfl hold
        | cons d olds => exact ⟨d, olds, rfl⟩
      simp only [replaceSubF]
      by_cases hp : (d :: olds).isPrefixOf (c :: t) = true
      · rw [if_pos hp, if_pos hp]
        congr 1
        exact ih _ _ _ (by simp at hn ⊢; omega) (by simp at h1 ⊢; omega)
          (by simp at h2 ⊢; omega)
      · rw [if_neg hp, if_neg hp]
        congr 1
        exact ih t a b (by simp at hn; omega) (by simp at h1; omega) (by simp at h2; omega)

theorem replaceSubF_skip (old new : List Char) (hold : old ≠ []) :
    ∀ base s fuel, (base ++ s).length ≤ fuel →
    (∀ k, k < base.length → old.isPrefixOf ((base ++ s).drop k) = false) →
    replaceSubF old new fuel (base ++ s) = base ++ replaceSubF old new s.length s := by
  intro base
  induction base with
  | nil =>
    intro s fuel hf _
    simp only [List.nil_append]
    exact replaceSubF_fuel_congr old new hold s.length s fuel s.length (le_refl _)
      (by simpa using hf) (le_refl _)
  | cons c b ih =>
    intro s fuel hf hk
    cases fuel with
    | zero => simp at hf
    | succ f =>
      have h0 : old.isPrefixOf (c :: (b ++ s)) = false := by
        have := hk 0 (by simp)
        simpa using this
      obtain ⟨d, olds, rfl⟩ : ∃ d olds, old = d :: olds := by
        cases old with
        | nil => exact absurd rfl hold
        | cons d olds => exact ⟨d, olds, rfl⟩
      simp only [List.cons_append, replaceSubF, h0]
      rw [if_neg (by simp [h0])]
      simp only [List.append_eq]
      rw [ih s f (by simp at hf ⊢; omega) (fun k hk2 => by
        have := hk (k + 1) (by simp; omega)
        simpa using this)]

/-- When `old` occurs nowhere that starts inside `base`, Python
`(base + s).replace(old, new)` leaves `base` untouched. -/
theorem replaceSub_skip (old new base s : List Char) (hold : old ≠ [])
    (hk : ∀ k, k < base.length → old.isPrefixOf ((base ++ s).drop k) = false) :
    replaceSub old new (base ++ s) = base ++ replaceSub old new s :=
  replaceSubF_skip old new hold base s (base ++ s).length (le_refl _) hk

/-- Claim C7 counterexample: with only `d.json` on disk, requesting
`d.jsonl` probes `d.jsonll` (the substring replacement hits the `.json`
inside `.jsonl`), so the reader reports a missing dataset instead of falling
back to `d.json`: the probe works in one direction only. -/
theorem c7_counterexample :
    resolve_dataset_path c7exists "d.jsonl" = none ∧
    c7exists "d.json" = true ∧
    pyReplace "d.jsonl" ".json" ".jsonl" = "d.jsonll" := by
  refine ⟨rfl, rfl, rfl⟩

/-- Claim C7 (amended): when the requested path is absent the reader probes
only the path obtained by substituting the `.json` extension substring with
`.jsonl` (so the structured-document → line-delimited direction works for
paths carrying `.json` purely as their suffix, but not the reverse), loads
the probed path when it exists, and reports a missing dataset otherwise. -/
theorem c7_amended_probe (ex : String → Bool) (path : String) :
    (ex path = true → resolve_dataset_path ex path = some path) ∧
    (ex path = false → ex (pyReplace path ".json" ".jsonl") = true →
      resolve_dataset_path ex path = some (pyReplace path ".json" ".jsonl")) ∧
    (ex path = false → ex (pyReplace path ".json" ".jsonl") = false →
      resolve_dataset_path ex path = none) ∧
    (∀ base : List Char,
      (∀ k, k < base.length → ".json".data.isPrefixOf ((base ++ ".json".data).drop k) = false) →
      pyReplace ⟨base ++ ".json".data⟩ ".json" ".jsonl" = ⟨base ++ ".jsonl".data⟩) := by
  refine ⟨?_, ?_, ?_, ?_⟩
  · intro h
    simp [resolve_dataset_path, h]
  · intro h1 h2
    simp [resolve_dataset_path, h1, h2]
  · intro h1 h2
    simp [resolve_dataset_path, h1, h2]
  · intro base hk
    show (⟨replaceSub ".json".data ".jsonl".data (base ++ ".json".data)⟩ : String) = _
    rw [replaceSub_skip ".json".data ".jsonl".data base ".json".data (by decide) hk]
    rfl

/-- Witness for the amended C7: existing path, successful probe, failing
probe, and the suffix-substitution identity at `base = "d"`. -/
theorem c7_amended_probe_witness :
    resolve_dataset_path c7exists "d.json" = some "d.json" ∧
    resolve_dataset_path (fun p => p == "d.jsonl") "d.json" = some "d.jsonl" ∧
    resolve_dataset_path c7exists "nope.json" = none ∧
    pyReplace ⟨"d".data ++ ".json".data⟩ ".json" ".jsonl" = ⟨"d".data ++ ".jsonl".data⟩ := by
  refine ⟨(c7_amended_probe c7exists "d.json").1 (by decide), ?_, ?_, ?_⟩
  · have h := (c7_amended_probe (fun p => p == "d.jsonl") "d.json").2.1 (by decide) (by decide)
    exact h.trans (by decide)
  · exact (c7_amended_probe c7exists "nope.json").2.2.1 (by decide) (by decide)
  · exact (c7_amended_probe c7exists "whatever").2.2.2 "d".data (by decide)

/-- Claim C8 counterexample: when the structured-document write fails, the
line-delimited format — requested in the same invocation — is never
attempted: the exception propagates out of the format loop. -/
theorem c8_counterexample :
    saveOutputs ⟨false, true, true, true⟩ [OutFormat.json, OutFormat.jsonl] =
      ([OutFormat.json], some "json write failed") ∧
    OutFormat.jsonl ∈ [OutFormat.json, OutFormat.jsonl] ∧
    OutFormat.jsonl ∉ [OutFormat.json] := by
  refine ⟨rfl, by decide, by decide⟩

/-- Claim C8 (amended): only the columnar capability being unavailable is
handled gracefully — the format is skipped with a warning and every other
requested format is still attempted — whereas a write failure in the
structured-document (or line-delimited) format aborts the invocation and
prevents the remaining requested formats from being attempted. -/
theorem c8_amended_formats (env : WriterEnv) (formats : List OutFormat) :
    (env.pandasAvailable = false → env.jsonOk = true → env.jsonlOk = true →
      (saveOutputs env formats).2 = none ∧
      ∀ f ∈ formats, f ∈ (saveOutputs env formats).1) ∧
    (env.jsonOk = false → OutFormat.json ∈ formats →
      (saveOutputs env formats).1 = [OutFormat.json] ∧
      (saveOutputs env formats).2 = some "json write failed") ∧
    (env.jsonlOk = false → OutFormat.jsonl ∈ formats →
      ¬(OutFormat.json ∈ formats ∧ env.jsonOk = false) →
      (saveOutputs env formats).2 = some "jsonl write failed" ∧
      OutFormat.parquet ∉ (saveOutputs env formats).1) := by
  refine ⟨?_, ?_, ?_⟩
  · intro hp hj hl
    unfold saveOutputs
    rw [if_neg (by rintro ⟨-, h⟩; rw [hj] at h; simp at h)]
    rw [if_neg (by rintro ⟨-, h⟩; rw [hl] at h; simp at h)]
    rw [if_neg (by rintro ⟨-, h, -⟩; rw [hp] at h; simp at h)]
    refine ⟨rfl, ?_⟩
    intro f hf
    cases f <;> simp [hf]
  · intro hj hmem
    unfold saveOutputs
    rw [if_pos ⟨hmem, hj⟩, if_pos hmem]
    exact ⟨rfl, rfl⟩
  · intro hl hmem hnab
    unfold saveOutputs
    rw [if_neg hnab, if_pos ⟨hmem, hl⟩, if_pos hmem]
    refine ⟨rfl, ?_⟩
    by_cases hj : OutFormat.json ∈ formats
    · rw [if_pos hj]
      decide
    · rw [if_neg hj]
      decide

/-- Witness for the amended C8: pandas unavailable with all three formats
requested (everything attempted, no abort), a failing structured-document
write with both document formats requested (only the first attempted), and a
failing line-delimited write with all three formats requested (abort at the
second, columnar never attempted). -/
theorem c8_amended_formats_witness :
    ((saveOutputs ⟨true, true, false, true⟩ [OutFormat.json, OutFormat.jsonl, OutFormat.parquet]).2
        = none ∧
      ∀ f ∈ [OutFormat.json, OutFormat.jsonl, OutFormat.parquet],
        f ∈ (saveOutputs ⟨true, true, false, true⟩
          [OutFormat.json, OutFormat.jsonl, OutFormat.parquet]).1) ∧
    ((saveOutputs ⟨false, true, true, true⟩ [OutFormat.json, OutFormat.jsonl]).1
        = [OutFormat.json] ∧
    (saveOutputs ⟨false, true, true, true⟩ [OutFormat.json, OutFormat.jsonl]).2
        = some "json write failed") ∧
    (saveOutputs ⟨true, false, true, true⟩ [OutFormat.json, OutFormat.jsonl, OutFormat.parquet]).2
        = some "jsonl write failed" ∧
    OutFormat.parquet ∉ (saveOutputs ⟨true, false, true, true⟩
        [OutFormat.json, OutFormat.jsonl, OutFormat.parquet]).1 := by
  refine ⟨(c8_amended_formats ⟨true, true, false, true⟩
      [OutFormat.json, OutFormat.jsonl, OutFormat.parquet]).1 rfl rfl rfl, ?_, ?_⟩
  · exact (c8_amended_formats ⟨false, true, true, true⟩
      [OutFormat.json, OutFormat.jsonl]).2.1 rfl (by decide)
  · exact (c8_amended_formats ⟨true, false, true, true⟩
      [OutFormat.json, OutFormat.jsonl, OutFormat.parquet]).2.2 rfl (by decide) (by decide)

theorem create_dataset_entry_fail (fs : String → Option String) (ip np : String) (idx : Int)
    (ts : String) (h : ¬readablePair fs ⟨ip, np⟩) :
    ∃ msg, create_dataset_entry fs ip np idx ts = Except.error msg := by
  cases hip : fs ip with
  | none =>
    refine ⟨ip, ?_⟩
    unfold create_dataset_entry read_file
    rw [hip]
    rfl
  | some a =>
    cases hnp : fs np with
    | none =>
      refine ⟨np, ?_⟩
      unfold create_dataset_entry read_file
      rw [hip, hnp]
      rfl
    | some b =>
      exact absurd ⟨by simp [hip], by simp [hnp]⟩ h

theorem exceptBind_ok {ε α β : Type} (a : α) (f : α → Except ε β) :
    (Except.ok a >>= f) = f a := rfl

theorem buildGo_ok (fs : String → Option String) (ts : String) :
    ∀ pairs idx, (∀ q ∈ pairs, readablePair fs q) →
    ∃ es, buildGo fs ts idx pairs = Except.ok es ∧ es.length = pairs.length := by
  intro pairs
  induction pairs with
  | nil => exact fun idx _ => ⟨[], rfl, rfl⟩
  | cons p rest ih =>
    intro idx h
    have hp := h p (List.mem_cons_self p rest)
    obtain ⟨a, ha⟩ := Option.isSome_iff_exists.mp hp.1
    obtain ⟨b, hb⟩ := Option.isSome_iff_exists.mp hp.2
    obtain ⟨es, hes, hlen⟩ := ih (idx + 1) (fun q hq => h q (List.mem_cons_of_mem p hq))
    refine ⟨(⟨idx, basenamePy p.inline_path, b, a,
      (countSub "\n".data b.data : Nat), (countSub "\n".data a.data : Nat),
      (countSub inlinedMarker a.data : Nat), (countSub variantMarker a.data : Nat),
      (countSub "\n".data a.data : Int) - (countSub "\n".data b.data : Int), ts⟩ : Entry) :: es,
      ?_, by simp [hlen]⟩
    rw [buildGo, create_dataset_entry_ok fs p.inline_path p.noinline_path idx ts a b ha hb,
      exceptBind_ok, hes, exceptBind_ok]

theorem buildGo_error (fs : String → Option String) (ts : String) (p : ProgramPair)
    (post : List ProgramPair) (hp : ¬readablePair fs p) :
    ∀ pre idx, (∀ q ∈ pre, readablePair fs q) →
    ∃ msg, buildGo fs ts idx (pre ++ p :: post) = Except.error msg := by
  intro pre
  induction pre with
  | nil =>
    intro idx _
    obtain ⟨msg, hmsg⟩ := create_dataset_entry_fail fs p.inline_path p.noinline_path idx ts
      (by rw [show (⟨p.inline_path, p.noinline_path⟩ : ProgramPair) = p from rfl]; exact hp)
    refine ⟨msg, ?_⟩
    rw [List.nil_append, buildGo, hmsg]
    rfl
  | cons q pre ih =>
    intro idx h
    have hq := h q (List.mem_cons_self q pre)
    obtain ⟨a, ha⟩ := Option.isSome_iff_exists.mp hq.1
    obtain ⟨b, hb⟩ := Option.isSome_iff_exists.mp hq.2
    obtain ⟨msg, hmsg⟩ := ih (idx + 1) (fun r hr => h r (List.mem_cons_of_mem q hr))
    refine ⟨msg, ?_⟩
    rw [List.cons_append, buildGo,
      create_dataset_entry_ok fs q.inline_path q.noinline_path idx ts a b ha hb,
      exceptBind_ok, hmsg]
    rfl

/-- Claim C1 counterexample: in a three-pair build whose middle pair is
unreadable while the first and third pairs are readable, the unhandled
`IOError` aborts the whole build with no records at all — the readable third
pair produces nothing, even though a pair had already succeeded. -/
theorem c1_counterexample :
    buildDataset c1fs "t" c1pairs = Except.error "p2.c" ∧
    readablePair c1fs ⟨"p1.c", "p1_noinline.c"⟩ ∧
    readablePair c1fs ⟨"p3.c", "p3_noinline.c"⟩ := by
  refine ⟨rfl, by decide, by decide⟩

/-- Claim C1 (amended): a read failure on any pair — first or later,
regardless of earlier successes — propagates and aborts the entire build
with an error, producing no records; records for all pairs are produced
exactly when every pair is readable. -/
theorem c1_amended_abort (fs : String → Option String) (ts : String) :
    (∀ pre p post, (∀ q ∈ pre, readablePair fs q) → ¬readablePair fs p →
      ∃ msg, buildDataset fs ts (pre ++ p :: post) = Except.error msg) ∧
    (∀ pairs, (∀ q ∈ pairs, readablePair fs q) →
      ∃ es, buildDataset fs ts pairs = Except.ok es ∧ es.length = pairs.length) := by
  constructor
  · intro pre p post hpre hp
    exact buildGo_error fs ts p post hp pre 0 hpre
  · intro pairs h
    exact buildGo_ok fs ts pairs 0 h

/-- Witness for the amended C1 at the concrete three-pair scenario. -/
theorem c1_amended_abort_witness :
    (∃ msg, buildDataset c1fs "t"
      ([⟨"p1.c", "p1_noinline.c"⟩] ++ ⟨"p2.c", "p2_noinline.c"⟩ :: [⟨"p3.c", "p3_noinline.c"⟩]) =
        Except.error msg) ∧
    ∃ es, buildDataset c1fs "t" [⟨"p1.c", "p1_noinline.c"⟩] = Except.ok es ∧
      es.length = [(⟨"p1.c", "p1_noinline.c"⟩ : ProgramPair)].length := by
  constructor
  · exact (c1_amended_abort c1fs "t").1 [⟨"p1.c", "p1_noinline.c"⟩] ⟨"p2.c", "p2_noinline.c"⟩
      [⟨"p3.c", "p3_noinline.c"⟩] (by decide) (by decide)
  · exact (c1_amended_abort c1fs "t").2 [⟨"p1.c", "p1_noinline.c"⟩] (by decide)

theorem filterMap_guard_eq {α β : Type} (P : α → Prop) [DecidablePred P] (g : α → β)
    (l : List α) :
    l.filterMap (fun a => if P a then some (g a) else none) =
      (l.filter (fun a => decide (P a))).map g := by
  induction l with
  | nil => rfl
  | cons a t ih => by_cases h : P a <;> simp [h, ih]

/-- Claim C2 counterexample: adding an unmatched transformed file to a
directory changes nothing observable about the Pair Locator's result — the
unmatched file is dropped silently, with no count and no trace, rather than
being counted and reported. -/
theorem c2_counterexample :
    find_program_pairs c2dirB = find_program_pairs c2dirA ∧
    noinlineSuffix.isSuffixOf "b_noinline.c".data = true ∧
    pyReplace "b_noinline.c" "_noinline.c" ".c" = "b.c" ∧
    "b.c" ∉ c2dirB := by
  refine ⟨rfl, rfl, rfl, by decide⟩

/-- Claim C2 (amended): the Pair Locator returns exactly one pair per
transformed file whose replacement-derived original exists (so exactly N
pairs, each transformed file in at most one pair, and the original path is
the suffix-stripped name whenever the suffix occurs only at the end), but the
M unmatched transformed files are skipped silently — they leave no trace in
the locator's output and are neither counted nor reported. -/
theorem c2_amended_pairing (files : List String) (hnd : files.Nodup) :
    find_program_pairs files =
      ((globNoinline files).filter
        (fun f => decide (pyReplace f "_noinline.c" ".c" ∈ files))).map
        (fun f => ⟨pyReplace f "_noinline.c" ".c", f⟩) ∧
    (find_program_pairs files).length =
      ((globNoinline files).filter
        (fun f => decide (pyReplace f "_noinline.c" ".c" ∈ files))).length ∧
    ((find_program_pairs files).map ProgramPair.noinline_path).Nodup ∧
    (∀ base : List Char,
      (∀ k, k < base.length → noinlineSuffix.isPrefixOf ((base ++ noinlineSuffix).drop k) = false) →
      pyReplace ⟨base ++ noinlineSuffix⟩ "_noinline.c" ".c" = ⟨base ++ ".c".data⟩) := by
  have hchar : find_program_pairs files =
      ((globNoinline files).filter
        (fun f => decide (pyReplace f "_noinline.c" ".c" ∈ files))).map
        (fun f => ⟨pyReplace f "_noinline.c" ".c", f⟩) := by
    rw [show find_program_pairs files = (globNoinline files).filterMap
      (fun p => if pyReplace p "_noinline.c" ".c" ∈ files then
        some (⟨pyReplace p "_noinline.c" ".c", p⟩ : ProgramPair) else none) from rfl]
    exact filterMap_guard_eq (fun f => pyReplace f "_noinline.c" ".c" ∈ files)
      (fun f => (⟨pyReplace f "_noinline.c" ".c", f⟩ : ProgramPair)) (globNoinline files)
  refine ⟨hchar, by rw [hchar, List.length_map], ?_, ?_⟩
  · rw [hchar, List.map_map]
    have : (ProgramPair.noinline_path ∘ fun f =>
        (⟨pyReplace f "_noinline.c" ".c", f⟩ : ProgramPair)) = id := by
      funext f
      rfl
    rw [this, List.map_id]
    exact (hnd.filter _).filter _
  · intro base hk
    show (⟨replaceSub noinlineSuffix ".c".data (base ++ noinlineSuffix)⟩ : String) = _
    rw [replaceSub_skip noinlineSuffix ".c".data base noinlineSuffix (by decide) hk]
    rfl

/-- Witness for the amended C2 at the concrete two-file directory. -/
theorem c2_amended_pairing_witness :
    find_program_pairs c2dirB =
      ((globNoinline c2dirB).filter
        (fun f => decide (pyReplace f "_noinline.c" ".c" ∈ c2dirB))).map
        (fun f => ⟨pyReplace f "_noinline.c" ".c", f⟩) ∧
    ((find_program_pairs c2dirB).map ProgramPair.noinline_path).Nodup ∧
    pyReplace ⟨"a".data ++ noinlineSuffix⟩ "_noinline.c" ".c" = ⟨"a".data ++ ".c".data⟩ := by
  have h := c2_amended_pairing c2dirB (by decide)
  exact ⟨h.1, h.2.2.1, h.2.2.2 "a".data (by decide)⟩

/-- Claim C6: the end-to-end scenario — a directory holding exactly `a.c`
(two marker lines, one variant line) and `a_noinline.c` (three fewer
newlines) — yields exactly one record with `inlined_ops_count = 2`,
`variant_count = 1` and `line_diff = 3` (transformed minus original). -/
theorem c6_end_to_end :
    ∃ e, buildDataset c6fs "t0" (find_program_pairs c6files) = Except.ok [e] ∧
      e.inlined_ops_count = 2 ∧ e.variant_count = 1 ∧ e.line_diff = 3 :=
  ⟨⟨0, "a.c", c6before, c6after, 3, 6, 2, 1, 3, "t0"⟩, rfl, rfl, rfl, rfl⟩

theorem scanEndF_ge (lines : List (List Char)) :
    ∀ fuel e, e ≤ scanEndF lines fuel e := by
  intro fuel
  induction fuel with
  | zero => intro e; exact le_refl e
  | succ f ih =>
    intro e
    simp only [scanEndF]
    by_cases h : e < lines.length
    · rw [dif_pos h]
      by_cases hc : contLine lines[e] = true
      · rw [if_pos hc]
        exact le_trans (Nat.le_succ e) (ih (e + 1))
      · rw [if_neg hc]
    · rw [dif_neg h]

theorem scanEndF_le (lines : List (List Char)) :
    ∀ fuel e, e ≤ lines.length → scanEndF lines fuel e ≤ lines.length := by
  intro fuel
  induction fuel with
  | zero => intro e he; exact he
  | succ f ih =>
    intro e he
    simp only [scanEndF]
    by_cases h : e < lines.length
    · rw [dif_pos h]
      by_cases hc : contLine lines[e] = true
      · rw [if_pos hc]
        exact ih (e + 1) h
      · rw [if_neg hc]
        exact he
    · rw [dif_neg h]
      exact he

theorem scanEndF_cont (lines : List (List Char)) :
    ∀ fuel e, lines.length - e ≤ fuel → ∀ j, e ≤ j → j < scanEndF lines fuel e →
    ∃ hj : j < lines.length, contLine lines[j] = true := by
  intro fuel
  induction fuel with
  | zero =>
    intro e hf j hej hj
    simp only [scanEndF] at hj
    omega
  | succ f ih =>
    intro e hf j hej hj
    simp only [scanEndF] at hj
    by_cases h : e < lines.length
    · rw [dif_pos h] at hj
      by_cases hc : contLine lines[e] = true
      · rw [if_pos hc] at hj
        rcases Nat.eq_or_lt_of_le hej with rfl | hlt
        · exact ⟨h, hc⟩
        · exact ih (e + 1) (by omega) j hlt hj
      · rw [if_neg hc] at hj
        omega
    · rw [dif_neg h] at hj
      omega

theorem scanEndF_stop (lines : List (List Char)) :
    ∀ fuel e, lines.length - e ≤ fuel →
    ∀ h2 : scanEndF lines fuel e < lines.length, contLine lines[scanEndF lines fuel e] = false := by
  intro fuel
  induction fuel with
  | zero =>
    intro e hf h2
    simp only [scanEndF] at h2 ⊢
    exact absurd h2 (by omega)
  | succ f ih =>
    intro e hf
    by_cases h : e < lines.length
    · by_cases hc : contLine lines[e] = true
      · have hred : scanEndF lines (f + 1) e = scanEndF lines f (e + 1) := by
          simp only [scanEndF]
          rw [dif_pos h, if_pos hc]
        rw [hred]
        exact ih (e + 1) (by omega)
      · have hred : scanEndF lines (f + 1) e = e := by
          simp only [scanEndF]
          rw [dif_pos h, if_neg hc]
        rw [hred]
        intro h2
        exact Bool.eq_false_iff.mpr hc
    · have hred : scanEndF lines (f + 1) e = e := by
        simp only [scanEndF]
        rw [dif_neg h]
      rw [hred]
      intro h2
      exact absurd h2 h

theorem scanEndF_stop_imm (lines : List (List Char)) (e : Nat)
    (h : ∀ he : e < lines.length, contLine lines[e] = false) :
    ∀ fuel, scanEndF lines fuel e = e := by
  intro fuel
  cases fuel with
  | zero => rfl
  | succ f =>
    simp only [scanEndF]
    by_cases hb : e < lines.length
    · rw [dif_pos hb, if_neg (by simp [h hb])]
    · rw [dif_neg hb]

theorem scanFromF_mem (lines : List (List Char)) :
    ∀ fuel i p, p ∈ scanFromF lines fuel i →
    i ≤ p.1 ∧ p.1 < p.2 ∧ p.2 ≤ lines.length ∧ p.2 = scanEnd lines (p.1 + 1) ∧
    ∃ h : p.1 < lines.length, containsSub inlinedMarker lines[p.1] = true := by
  intro fuel
  induction fuel with
  | zero => intro i p hp; exact absurd hp (by simp [scanFromF])
  | succ f ih =>
    intro i p hp
    simp only [scanFromF] at hp
    by_cases h : i < lines.length
    · rw [dif_pos h] at hp
      by_cases hm : containsSub inlinedMarker lines[i] = true
      · rw [if_pos hm] at hp
        rcases List.mem_cons.mp hp with rfl | htail
        · refine ⟨le_refl i, ?_, ?_, rfl, h, hm⟩
          · exact lt_of_lt_of_le (Nat.lt_succ_self i) (scanEndF_ge lines lines.length (i + 1))
          · exact scanEndF_le lines lines.length (i + 1) h
        · obtain ⟨h1, h2, h3, h4, h5⟩ := ih (scanEnd lines (i + 1)) p htail
          refine ⟨?_, h2, h3, h4, h5⟩
          have : i + 1 ≤ scanEnd lines (i + 1) := scanEndF_ge lines lines.length (i + 1)
          omega
      · rw [if_neg hm] at hp
        obtain ⟨h1, h2, h3, h4, h5⟩ := ih (i + 1) p hp
        exact ⟨by omega, h2, h3, h4, h5⟩
    · rw [dif_neg h] at hp
      exact absurd hp (by simp)

theorem scanFromF_sorted (lines : List (List Char)) :
    ∀ fuel i, List.Pairwise (fun p q : Nat × Nat => p.2 ≤ q.1) (scanFromF lines fuel i) := by
  intro fuel
  induction fuel with
  | zero => intro i; simp [scanFromF]
  | succ f ih =>
    intro i
    simp only [scanFromF]
    by_cases h : i < lines.length
    · rw [dif_pos h]
      by_cases hm : containsSub inlinedMarker lines[i] = true
      · rw [if_pos hm]
        refine List.Pairwise.cons ?_ (ih (scanEnd lines (i + 1)))
        intro q hq
        exact (scanFromF_mem lines f (scanEnd lines (i + 1)) q hq).1
      · rw [if_neg hm]
        exact ih (i + 1)
    · rw [dif_neg h]
      simp

theorem scanFromF_nil (lines : List (List Char)) :
    ∀ fuel i, (∀ j, i ≤ j → ∀ hj : j < lines.length, containsSub inlinedMarker lines[j] = false) →
    scanFromF lines fuel i = [] := by
  intro fuel
  induction fuel with
  | zero => intro i _; rfl
  | succ f ih =>
    intro i h
    simp only [scanFromF]
    by_cases hb : i < lines.length
    · rw [dif_pos hb, if_neg (by simp [h i (le_refl i) hb])]
      exact ih (i + 1) (fun j hj hjl => h j (by omega) hjl)
    · rw [dif_neg hb]

theorem scanFromF_covers (lines : List (List Char)) :
    ∀ fuel i j, lines.length - i ≤ fuel → i ≤ j → ∀ hj : j < lines.length,
    containsSub inlinedMarker lines[j] = true →
    ∃ p ∈ scanFromF lines fuel i, p.1 ≤ j ∧ j < p.2 := by
  intro fuel
  induction fuel with
  | zero => intro i j hf hij hj _; omega
  | succ f ih =>
    intro i j hf hij hj hm
    have hi : i < lines.length := lt_of_le_of_lt hij hj
    simp only [scanFromF, dif_pos hi]
    by_cases hmi : containsSub inlinedMarker lines[i] = true
    · rw [if_pos hmi]
      by_cases hlt : j < scanEnd lines (i + 1)
      · exact ⟨(i, scanEnd lines (i + 1)), List.mem_cons_self _ _, hij, hlt⟩
      · have hge : i + 1 ≤ scanEnd lines (i + 1) := scanEndF_ge lines lines.length (i + 1)
        obtain ⟨p, hp, h1, h2⟩ := ih (scanEnd lines (i + 1)) j (by omega) (by omega) hj hm
        exact ⟨p, List.mem_cons_of_mem _ hp, h1, h2⟩
    · rw [if_neg hmi]
      have hne : i ≠ j := fun he => hmi (he ▸ hm)
      exact ih (i + 1) j (by omega) (by omega) hj hm

theorem contLine_false_of_malloc (l : List Char) (h : containsSub mallocLit l = true) :
    contLine l = false := by
  simp [contLine, h]

theorem scanFromF_single (lines : List (List Char)) (i : Nat) (hi : i < lines.length)
    (hm : ∀ j (hj : j < lines.length), containsSub inlinedMarker lines[j] = true ↔ j = i)
    (hstop : ∀ he : i + 1 < lines.length, contLine lines[i + 1] = false) :
    ∀ fuel k, k ≤ i → lines.length - k ≤ fuel → scanFromF lines fuel k = [(i, i + 1)] := by
  intro fuel
  induction fuel with
  | zero => intro k hk hf; omega
  | succ f ih =>
    intro k hk hf
    have hkl : k < lines.length := lt_of_le_of_lt hk hi
    simp only [scanFromF, dif_pos hkl]
    by_cases hki : k = i
    · subst hki
      rw [if_pos ((hm k hkl).mpr rfl)]
      have hend : scanEnd lines (k + 1) = k + 1 :=
        scanEndF_stop_imm lines (k + 1) hstop lines.length
      rw [hend]
      rw [scanFromF_nil lines f (k + 1) (fun j hj hjl => by
        rcases Bool.eq_false_or_eq_true (containsSub inlinedMarker lines[j]) with hb | hb
        · exact absurd ((hm j hjl).mp hb) (by omega)
        · exact hb)]
    · rw [if_neg (by
        rcases Bool.eq_false_or_eq_true (containsSub inlinedMarker lines[k]) with hb | hb
        · exact absurd ((hm k hkl).mp hb) hki
        · simp [hb])]
      exact ih (k + 1) (by omega) (by omega)

/-- Claim C10: the scanner's regions are pairwise disjoint line spans listed
in strictly increasing order of starting line; each reported (1-based)
starting line contains the marker, and each region contains at least the
marker line (regions are never empty). -/
theorem c10_region_invariants (code : String) :
    List.Pairwise (fun p q : Nat × Nat => p.2 ≤ q.1) (scanFrom (splitNl code.data) 0) ∧
    (∀ p ∈ scanFrom (splitNl code.data) 0,
      p.1 < p.2 ∧ p.2 ≤ (splitNl code.data).length ∧
      ∃ h : p.1 < (splitNl code.data).length,
        containsSub inlinedMarker (splitNl code.data)[p.1] = true) ∧
    find_inlined_sections code = (scanFrom (splitNl code.data) 0).map
      (fun p => ⟨p.1 + 1, ⟨joinNl (((splitNl code.data).drop p.1).take (p.2 - p.1))⟩⟩) ∧
    ((find_inlined_sections code).map Sect.line).Pairwise (· < ·) := by
  refine ⟨scanFromF_sorted _ _ 0, ?_, rfl, ?_⟩
  · intro p hp
    obtain ⟨h1, h2, h3, h4, h5⟩ := scanFromF_mem _ _ 0 p hp
    exact ⟨h2, h3, h5⟩
  · have heq : (find_inlined_sections code).map Sect.line =
        (scanFrom (splitNl code.data) 0).map (fun p => p.1 + 1) := by
      show ((scanFrom (splitNl code.data) 0).map _).map Sect.line = _
      rw [List.map_map]
      rfl
    rw [heq, List.pairwise_map]
    refine (scanFromF_sorted _ _ 0).imp_of_mem ?_
    intro p q hp hq hle
    have h1 := (scanFromF_mem _ _ 0 p hp).2.1
    omega

/-- Witness exercising C10's characterisation at a concrete text. -/
theorem c10_region_invariants_witness :
    find_inlined_sections c3code = (scanFrom (splitNl c3code.data) 0).map
      (fun p => ⟨p.1 + 1, ⟨joinNl (((splitNl c3code.data).drop p.1).take (p.2 - p.1))⟩⟩) ∧
    List.Pairwise (fun p q : Nat × Nat => p.2 ≤ q.1) (scanFrom (splitNl c3code.data) 0) :=
  ⟨(c10_region_invariants c3code).2.2.1, (c10_region_invariants c3code).1⟩

/-- Claim C3 counterexample: in `c3code` the second (1-based) line contains
the marker, yet the scanner produces a single region starting at line 1 that
absorbs it — no region begins at line 2, refuting "begins a region at each
line containing the transformation-marker literal". -/
theorem c3_counterexample :
    find_inlined_sections c3code = [⟨1, "x /* INLINED */\ny /* INLINED */ z"⟩] ∧
    (splitNl c3code.data)[1]? = some "y /* INLINED */ z".data ∧
    containsSub inlinedMarker "y /* INLINED */ z".data = true ∧
    ∀ s ∈ find_inlined_sections c3code, s.line ≠ 2 := by
  refine ⟨rfl, rfl, rfl, by decide⟩

/-- Claim C3 (amended): the scanner begins a region at every
marker-containing line that is not already covered by a preceding region
(markers inside a running region are absorbed rather than starting regions);
each region extends forward exactly while subsequent lines satisfy the
continuation conditions, the first failing line terminating it exclusively;
zero markers yield an empty region sequence; and a sole marker line directly
followed by an allocation-call line yields exactly one region ending before
that line. -/
theorem c3_amended_scanner (code : String) :
    (∀ p ∈ scanFrom (splitNl code.data) 0,
      (∀ j, p.1 < j → j < p.2 →
        ∃ hj : j < (splitNl code.data).length, contLine (splitNl code.data)[j] = true) ∧
      (∀ h2 : p.2 < (splitNl code.data).length, contLine (splitNl code.data)[p.2] = false)) ∧
    (∀ j (hj : j < (splitNl code.data).length),
      containsSub inlinedMarker (splitNl code.data)[j] = true →
      ∃ p ∈ scanFrom (splitNl code.data) 0, p.1 ≤ j ∧ j < p.2) ∧
    ((∀ j (hj : j < (splitNl code.data).length),
      containsSub inlinedMarker (splitNl code.data)[j] = false) →
      find_inlined_sections code = []) ∧
    (∀ i (hi : i < (splitNl code.data).length) (hn : i + 1 < (splitNl code.data).length),
      (∀ j (hj : j < (splitNl code.data).length),
        containsSub inlinedMarker (splitNl code.data)[j] = true ↔ j = i) →
      containsSub mallocLit (splitNl code.data)[i + 1] = true →
      find_inlined_sections code = [⟨i + 1, ⟨(splitNl code.data)[i]⟩⟩]) := by
  refine ⟨?_, ?_, ?_, ?_⟩
  · intro p hp
    obtain ⟨s, e2⟩ := p
    obtain ⟨h0, h1, h2, h4, h5⟩ := scanFromF_mem _ _ 0 ⟨s, e2⟩ hp
    simp only at h1 h2 h4 ⊢
    subst h4
    constructor
    · intro j hj1 hj2
      exact scanEndF_cont _ _ (s + 1) (Nat.sub_le _ _) j (by omega) hj2
    · intro hlt
      exact scanEndF_stop _ _ (s + 1) (Nat.sub_le _ _) hlt
  · intro j hj hm
    exact scanFromF_covers _ _ 0 j (Nat.sub_le _ _) (Nat.zero_le j) hj hm
  · intro h
    show ((scanFrom (splitNl code.data) 0).map _) = []
    rw [show scanFrom (splitNl code.data) 0 = [] from
      scanFromF_nil _ _ 0 (fun j _ hjl => h j hjl)]
    rfl
  · intro i hi hn hm hmal
    have hsingle : scanFrom (splitNl code.data) 0 = [(i, i + 1)] :=
      scanFromF_single _ i hi hm
        (fun he => contLine_false_of_malloc _ hmal) _ 0 (Nat.zero_le i) (Nat.sub_le _ _)
    show ((scanFrom (splitNl code.data) 0).map _) = _
    rw [hsingle]
    simp only [List.map_cons, List.map_nil, Nat.add_sub_cancel_left]
    rw [List.drop_eq_getElem_cons hi]
    rfl

/-- Witness for the amended C3: the zero-marker clause and the
marker-then-allocation clause at concrete texts. -/
theorem c3_amended_scanner_witness :
    find_inlined_sections "int x;\nint y;" = [] ∧
    find_inlined_sections "a\n/* INLINED */ s1;\nint p = malloc(4);\nmore" =
      [⟨2, "/* INLINED */ s1;"⟩] := by
  constructor
  · exact (c3_amended_scanner "int x;\nint y;").2.2.1 (by decide)
  · have h := (c3_amended_scanner "a\n/* INLINED */ s1;\nint p = malloc(4);\nmore").2.2.2
      1 (by decide) (by decide) (by decide) (by decide)
    exact h.trans (by decide)

theorem skipWs_cons_nws (c : Char) (s : List Char) (h : isWsC c = false) :
    skipWs (c :: s) = c :: s := by
  simp [skipWs, h]

theorem skipWs_append_ws (w s : List Char) (h : ∀ c ∈ w, isWsC c = true) :
    skipWs (w ++ s) = skipWs s := by
  induction w with
  | nil => rfl
  | cons c t ih =>
    show skipWs (c :: (t ++ s)) = skipWs s
    rw [show skipWs (c :: (t ++ s)) = skipWs (t ++ s) by
      simp [skipWs, h c (List.mem_cons_self c t)]]
    exact ih (fun d hd => h d (List.mem_cons_of_mem c hd))

theorem charDigit_toNat : ∀ n, n < 10 → (Char.ofNat (48 + n)).toNat = 48 + n := by decide

theorem encNatF_digits : ∀ fuel n, n < fuel → ∀ c ∈ encNatF fuel n, isDigitC c = true := by
  intro fuel
  induction fuel with
  | zero => intro n h; omega
  | succ f ih =>
    intro n h c hc
    simp only [encNatF] at hc
    by_cases h10 : n < 10
    · rw [if_pos h10] at hc
      simp at hc
      subst hc
      simp [isDigitC, charDigit_toNat n h10]
      omega
    · rw [if_neg h10] at hc
      rcases List.mem_append.mp hc with h1 | h1
      · exact ih (n / 10) (by omega) c h1
      · simp at h1
        subst h1
        have hm := charDigit_toNat (n % 10) (Nat.mod_lt n (by norm_num))
        simp [isDigitC, hm]
        omega

theorem encNatF_ne_nil : ∀ fuel n, n < fuel → encNatF fuel n ≠ [] := by
  intro fuel
  induction fuel with
  | zero => intro n h; omega
  | succ f ih =>
    intro n h
    simp only [encNatF]
    by_cases h10 : n < 10
    · rw [if_pos h10]
      simp
    · rw [if_neg h10]
      simp

theorem encNat_digits (n : Nat) : ∀ c ∈ encNat n, isDigitC c = true :=
  encNatF_digits (n + 1) n (Nat.lt_succ_self n)

theorem encNat_ne_nil (n : Nat) : encNat n ≠ [] :=
  encNatF_ne_nil (n + 1) n (Nat.lt_succ_self n)

theorem foldDecimal_append (ds : List Char) (d : Char) :
    foldDecimal (ds ++ [d]) = 10 * foldDecimal ds + (d.toNat - 48) := by
  unfold foldDecimal
  rw [List.foldl_append]
  rfl

theorem foldDecimal_encNatF : ∀ fuel n, n < fuel → foldDecimal (encNatF fuel n) = n := by
  intro fuel
  induction fuel with
  | zero => intro n h; omega
  | succ f ih =>
    intro n h
    simp only [encNatF]
    by_cases h10 : n < 10
    · rw [if_pos h10]
      show List.foldl _ 0 [Char.ofNat (48 + n)] = n
      simp [List.foldl, charDigit_toNat n h10]
    · rw [if_neg h10, foldDecimal_append, ih (n / 10) (by omega),
        charDigit_toNat (n % 10) (by omega)]
      omega

theorem foldDecimal_encNat (n : Nat) : foldDecimal (encNat n) = n :=
  foldDecimal_encNatF (n + 1) n (Nat.lt_succ_self n)

theorem takeWhile_append_stop (p : Char → Bool) (l r : List Char)
    (hl : ∀ c ∈ l, p c = true) (hr : ∀ c, r.head? = some c → p c = false) :
    (l ++ r).takeWhile p = l := by
  induction l with
  | nil =>
    cases r with
    | nil => rfl
    | cons c t => simp [List.takeWhile_cons, hr c rfl]
  | cons c t ih =>
    simp [List.takeWhile_cons, hl c (List.mem_cons_self c t),
      ih (fun d hd => hl d (List.mem_cons_of_mem c hd))]

theorem parseNat_enc (n : Nat) (rest : List Char)
    (hr : ∀ c, rest.head? = some c → isDigitC c = false) :
    parseNat (encNat n ++ rest) = some (n, rest) := by
  unfold parseNat
  rw [takeWhile_append_stop isDigitC (encNat n) rest (encNat_digits n) hr]
  rw [if_neg (by simp [encNat_ne_nil n])]
  rw [foldDecimal_encNat, List.drop_left]

theorem parseInt_enc (n : Int) (rest : List Char)
    (hr : ∀ c, rest.head? = some c → isDigitC c = false) :
    parseInt (encInt n ++ rest) = some (n, rest) := by
  unfold parseInt encInt
  by_cases hneg : n < 0
  · rw [if_pos hneg, List.cons_append, if_pos (by simp : ('-' :: (encNat n.natAbs ++ rest)).head? = some '-')]
    show (parseNat (encNat n.natAbs ++ rest)).map _ = _
    rw [parseNat_enc n.natAbs rest hr]
    have h2 : -((n.natAbs : Nat) : Int) = n := by omega
    show some (-((n.natAbs : Nat) : Int), rest) = some (n, rest)
    rw [h2]
  · rw [if_neg hneg]
    obtain ⟨c, t, hct⟩ : ∃ c t, encNat n.toNat = c :: t := by
      cases hh : encNat n.toNat with
      | nil => exact absurd hh (encNat_ne_nil _)
      | cons c t => exact ⟨c, t, rfl⟩
    have hc : isDigitC c = true :=
      encNat_digits n.toNat c (by rw [hct]; exact List.mem_cons_self c t)
    have hcne : c ≠ '-' := by
      intro he
      rw [he] at hc
      exact absurd hc (by decide)
    rw [hct, List.cons_append]
    rw [if_neg (by simp [hcne])]
    rw [← List.cons_append, ← hct, parseNat_enc n.toNat rest hr]
    simp [Int.toNat_of_nonneg (by omega : (0 : Int) ≤ n)]

theorem hexVal_hexDigit : ∀ n, n < 16 → hexVal (hexDigit n) = some n := by decide

theorem isWsC_false_of_digit (c : Char) (h : isDigitC c = true) : isWsC c = false := by
  simp only [isDigitC, Bool.and_eq_true, decide_eq_true_eq] at h
  simp only [isWsC, Bool.or_eq_false_iff, decide_eq_false_iff_not]
  omega

theorem ne_quote_of_digit (c : Char) (h : isDigitC c = true) : c ≠ '"' := by
  intro he
  rw [he] at h
  exact absurd h (by decide)

theorem isDigitC_false_of_ws (c : Char) (h : isWsC c = true) : isDigitC c = false := by
  simp only [isWsC, Bool.or_eq_true, decide_eq_true_eq] at h
  simp only [isDigitC, Bool.and_eq_false_iff, decide_eq_false_iff_not]
  omega

theorem parseJStrAux_eq (c : Char) (t : List Char) :
    parseJStrAux (c :: t) =
      (if c = '"' then some ([], t)
      else if c = '\\' then
        match t with
        | [] => none
        | e :: t2 =>
          if e = 'u' then
            match t2 with
            | h1 :: h2 :: h3 :: h4 :: r => do
              let v1 ← hexVal h1
              let v2 ← hexVal h2
              let v3 ← hexVal h3
              let v4 ← hexVal h4
              let p ← parseJStrAux r
              some (Char.ofNat (((v1 * 16 + v2) * 16 + v3) * 16 + v4) :: p.1, p.2)
            | _ => none
          else do
            let d ← escDecode1 e
            let p ← parseJStrAux t2
            some (d :: p.1, p.2)
      else (parseJStrAux t).map (fun p => (c :: p.1, p.2))) := by
  rw [parseJStrAux.eq_def]

theorem parseJStrAux_esc : ∀ s rest, parseJStrAux (escString s ++ '"' :: rest) = some (s, rest) := by
  intro s
  induction s with
  | nil =>
    intro rest
    show parseJStrAux ('"' :: rest) = some ([], rest)
    rw [parseJStrAux_eq, if_pos rfl]
  | cons c t ih =>
    intro rest
    show parseJStrAux ((escChar c ++ escString t) ++ '"' :: rest) = _
    rw [List.append_assoc]
    unfold escChar
    by_cases h1 : c = '"'
    · subst h1
      rw [if_pos rfl]
      show parseJStrAux ('\\' :: '"' :: (escString t ++ '"' :: rest)) = _
      rw [parseJStrAux_eq, if_neg (by decide), if_pos rfl]
      show (do
        let d ← escDecode1 '"'
        let p ← parseJStrAux (escString t ++ '"' :: rest)
        some (d :: p.1, p.2) : Option (List Char × List Char)) = some ('"' :: t, rest)
      rw [show escDecode1 '"' = some '"' from rfl, ih rest]
      rfl
    · rw [if_neg h1]
      by_cases h2 : c = '\\'
      · subst h2
        rw [if_pos rfl]
        show parseJStrAux ('\\' :: '\\' :: (escString t ++ '"' :: rest)) = _
        rw [parseJStrAux_eq, if_neg (by decide), if_pos rfl]
        show (do
          let d ← escDecode1 '\\'
          let p ← parseJStrAux (escString t ++ '"' :: rest)
          some (d :: p.1, p.2) : Option (List Char × List Char)) = some ('\\' :: t, rest)
        rw [show escDecode1 '\\' = some '\\' from rfl, ih rest]
        rfl
      · rw [if_neg h2]
        by_cases h3 : c = '\n'
        · subst h3
          rw [if_pos rfl]
          show parseJStrAux ('\\' :: 'n' :: (escString t ++ '"' :: rest)) = _
          rw [parseJStrAux_eq, if_neg (by decide), if_pos rfl]
          show (do
            let d ← escDecode1 'n'
            let p ← parseJStrAux (escString t ++ '"' :: rest)
            some (d :: p.1, p.2) : Option (List Char × List Char)) = some ('\n' :: t, rest)
          rw [show escDecode1 'n' = some '\n' from rfl, ih rest]
          rfl
        · rw [if_neg h3]
          by_cases h4 : c = '\r'
          · subst h4
            rw [if_pos rfl]
            show parseJStrAux ('\\' :: 'r' :: (escString t ++ '"' :: rest)) = _
            rw [parseJStrAux_eq, if_neg (by decide), if_pos rfl]
            show (do
              let d ← escDecode1 'r'
              let p ← parseJStrAux (escString t ++ '"' :: rest)
              some (d :: p.1, p.2) : Option (List Char × List Char)) = some ('\r' :: t, rest)
            rw [show escDecode1 'r' = some '\r' from rfl, ih rest]
            rfl
          · rw [if_neg h4]
            by_cases h5 : c = '\t'
            · subst h5
              rw [if_pos rfl]
              show parseJStrAux ('\\' :: 't' :: (escString t ++ '"' :: rest)) = _
              rw [parseJStrAux_eq, if_neg (by decide), if_pos rfl]
              show (do
                let d ← escDecode1 't'
                let p ← parseJStrAux (escString t ++ '"' :: rest)
                some (d :: p.1, p.2) : Option (List Char × List Char)) = some ('\t' :: t, rest)
              rw [show escDecode1 't' = some '\t' from rfl, ih rest]
              rfl
            · rw [if_neg h5]
              by_cases h6 : c = Char.ofNat 8
              · subst h6
                rw [if_pos rfl]
                show parseJStrAux ('\\' :: 'b' :: (escString t ++ '"' :: rest)) = _
                rw [parseJStrAux_eq, if_neg (by decide), if_pos rfl]
                show (do
                  let d ← escDecode1 'b'
                  let p ← parseJStrAux (escString t ++ '"' :: rest)
                  some (d :: p.1, p.2) : Option (List Char × List Char)) = some ((Char.ofNat 8) :: t, rest)
                rw [show escDecode1 'b' = some (Char.ofNat 8) from rfl, ih rest]
                rfl
              · rw [if_neg h6]
                by_cases h7 : c = Char.ofNat 12
                · subst h7
                  rw [if_pos rfl]
                  show parseJStrAux ('\\' :: 'f' :: (escString t ++ '"' :: rest)) = _
                  rw [parseJStrAux_eq, if_neg (by decide), if_pos rfl]
                  show (do
                    let d ← escDecode1 'f'
                    let p ← parseJStrAux (escString t ++ '"' :: rest)
                    some (d :: p.1, p.2) : Option (List Char × List Char)) = some ((Char.ofNat 12) :: t, rest)
                  rw [show escDecode1 'f' = some (Char.ofNat 12) from rfl, ih rest]
                  rfl
                · rw [if_neg h7]
                  by_cases h8 : c.toNat < 32
                  · rw [if_pos h8]
                    show parseJStrAux ('\\' :: 'u' :: '0' :: '0' ::
                      hexDigit (c.toNat / 16) :: hexDigit (c.toNat % 16) ::
                      (escString t ++ '"' :: rest)) = _
                    rw [parseJStrAux_eq, if_neg (by decide), if_pos rfl]
                    show (do
                      let v3 ← hexVal (hexDigit (c.toNat / 16))
                      let v4 ← hexVal (hexDigit (c.toNat % 16))
                      let p ← parseJStrAux (escString t ++ '"' :: rest)
                      some (Char.ofNat (((0 * 16 + 0) * 16 + v3) * 16 + v4) :: p.1, p.2)) =
                      some (c :: t, rest)
                    rw [hexVal_hexDigit (c.toNat / 16) (by omega),
                      hexVal_hexDigit (c.toNat % 16) (by omega), ih rest]
                    show some (Char.ofNat (((0 * 16 + 0) * 16 + c.toNat / 16) * 16 +
                      c.toNat % 16) :: t, rest) = _
                    rw [show ((0 * 16 + 0) * 16 + c.toNat / 16) * 16 + c.toNat % 16 =
                      c.toNat by omega, Char.ofNat_toNat]
                  · rw [if_neg h8]
                    show parseJStrAux (c :: (escString t ++ '"' :: rest)) = _
                    rw [parseJStrAux_eq, if_neg h1, if_neg h2, ih rest]
                    rfl

theorem parseKeyStr_enc (k : String) (rest : List Char) :
    parseKeyStr (jstrEnc k.data ++ rest) = some (k, rest) := by
  unfold parseKeyStr jstrEnc
  rw [List.cons_append]
  rw [if_pos (by simp : ('"' :: ((escString k.data ++ ['"']) ++ rest)).head? = some '"')]
  show (parseJStrAux ((escString k.data ++ ['"']) ++ rest)).map _ = _
  rw [List.append_assoc]
  show (parseJStrAux (escString k.data ++ '"' :: rest)).map _ = _
  rw [parseJStrAux_esc k.data rest]
  rfl

theorem encInt_head (n : Int) :
    ∃ c t, encInt n = c :: t ∧ isWsC c = false ∧ c ≠ '"' := by
  unfold encInt
  by_cases hneg : n < 0
  · rw [if_pos hneg]
    exact ⟨'-', encNat n.natAbs, rfl, by decide, by decide⟩
  · rw [if_neg hneg]
    obtain ⟨c, t, hct⟩ : ∃ c t, encNat n.toNat = c :: t := by
      cases hh : encNat n.toNat with
      | nil => exact absurd hh (encNat_ne_nil _)
      | cons c t => exact ⟨c, t, rfl⟩
    have hd : isDigitC c = true :=
      encNat_digits n.toNat c (by rw [hct]; exact List.mem_cons_self c t)
    exact ⟨c, t, hct, isWsC_false_of_digit c hd, ne_quote_of_digit c hd⟩

theorem parseVal_enc (v : FVal) (w rest : List Char) (hw : ∀ c ∈ w, isWsC c = true)
    (hr : ∀ c, rest.head? = some c → isDigitC c = false) :
    parseVal (w ++ encVal v ++ rest) = some (v, rest) := by
  cases v with
  | vs s =>
    unfold parseVal encVal jstrEnc
    rw [List.append_assoc, skipWs_append_ws w _ hw, List.cons_append,
      skipWs_cons_nws '"' _ (by decide)]
    rw [if_pos (by simp : ('"' :: ((escString s.data ++ ['"']) ++ rest)).head? = some '"')]
    show (parseJStrAux ((escString s.data ++ ['"']) ++ rest)).map _ = _
    rw [List.append_assoc]
    show (parseJStrAux (escString s.data ++ '"' :: rest)).map _ = _
    rw [parseJStrAux_esc s.data rest]
    rfl
  | vi n =>
    show parseVal (w ++ encInt n ++ rest) = _
    unfold parseVal
    rw [List.append_assoc, skipWs_append_ws w _ hw]
    obtain ⟨c, t, hct, hws, hq⟩ := encInt_head n
    rw [hct, List.cons_append, skipWs_cons_nws c _ hws]
    rw [if_neg (by simp [hq])]
    rw [← List.cons_append, ← hct, parseInt_enc n rest hr]
    rfl

theorem optBind_some {α β : Type} (a : α) (f : α → Option β) : (some a >>= f) = f a := rfl

theorem skipWs_jstrEnc (s R : List Char) : skipWs (jstrEnc s ++ R) = jstrEnc s ++ R := by
  unfold jstrEnc
  rw [List.cons_append, skipWs_cons_nws '"' _ (by decide)]

theorem parseVal_enc_sp (v : FVal) (tail2 : List Char)
    (hr : ∀ c, tail2.head? = some c → isDigitC c = false) :
    parseVal (' ' :: (encVal v ++ tail2)) = some (v, tail2) := by
  show parseVal ([' '] ++ encVal v ++ tail2) = _
  exact parseVal_enc v [' '] tail2 (by decide) hr

theorem close_head_not_digit (close rest : List Char) (hclose : ∀ c ∈ close, isWsC c = true) :
    ∀ c, (close ++ '}' :: rest).head? = some c → isDigitC c = false := by
  intro c hc
  cases close with
  | nil =>
    simp at hc
    subst hc
    decide
  | cons d t =>
    simp at hc
    subst hc
    exact isDigitC_false_of_ws d (hclose d (List.mem_cons_self d t))

theorem skipWs_close (close rest : List Char) (hclose : ∀ c ∈ close, isWsC c = true) :
    skipWs (close ++ '}' :: rest) = '}' :: rest := by
  rw [skipWs_append_ws close _ hclose, skipWs_cons_nws '}' _ (by decide)]

theorem parseFieldsF_succ (fuel : Nat) (s : List Char) :
    parseFieldsF (fuel + 1) s = (do
      let (k, s1) ← parseKeyStr (skipWs s)
      let s2 := skipWs s1
      if s2.head? = some ':' then do
        let (v, s4) ← parseVal s2.tail
        let s5 := skipWs s4
        if s5.head? = some ',' then do
          let (fvs, r) ← parseFieldsF fuel s5.tail
          some ((k, v) :: fvs, r)
        else some ([(k, v)], s5)
      else none) := by
  rw [parseFieldsF.eq_def]

theorem encFields_single (pre : List Char) (k : String) (v : FVal) :
    encFields pre [(k, v)] = jstrEnc k.data ++ (':' :: ' ' :: encVal v) := by
  unfold encFields
  simp

theorem encFields_cons (pre : List Char) (k : String) (v : FVal) (kv2 : String × FVal)
    (fvs : List (String × FVal)) :
    encFields pre ((k, v) :: kv2 :: fvs) =
      jstrEnc k.data ++ (':' :: ' ' :: (encVal v ++ (',' :: (pre ++ encFields pre (kv2 :: fvs))))) := by
  unfold encFields
  simp
  unfold encFields
  simp
  by_cases hfvs : fvs = []
  · simp [hfvs]
  · simp [hfvs]
    rw [encFields.eq_def]
    cases fvs with
    | nil => simp at hfvs
    | cons a l => simp [List.append_assoc]

theorem parseFieldsF_enc (pre close : List Char)
    (hpre : ∀ c ∈ pre, isWsC c = true) (hclose : ∀ c ∈ close, isWsC c = true) :
    ∀ fvs fuel w rest, fvs ≠ [] → fvs.length ≤ fuel → (∀ c ∈ w, isWsC c = true) →
    parseFieldsF fuel (w ++ encFields pre fvs ++ close ++ '}' :: rest) =
      some (fvs, '}' :: rest) := by
  intro fvs
  induction fvs with
  | nil => intro fuel w rest hne; exact absurd rfl hne
  | cons kv fvs2 ih =>
    intro fuel w rest _ hlen hw
    obtain ⟨k, v⟩ := kv
    obtain ⟨f, rfl⟩ : ∃ f, fuel = f + 1 := ⟨fuel - 1, by simp at hlen; omega⟩
    rw [parseFieldsF_succ]
    cases fvs2 with
    | nil =>
      rw [encFields_single]
      rw [show w ++ (jstrEnc k.data ++ ':' :: ' ' :: encVal v) ++ close ++ '}' :: rest =
        w ++ (jstrEnc k.data ++ (':' :: ' ' :: (encVal v ++ (close ++ '}' :: rest)))) by
          simp [List.append_assoc]]
      rw [skipWs_append_ws w _ hw, skipWs_jstrEnc,
        parseKeyStr_enc k (':' :: ' ' :: (encVal v ++ (close ++ '}' :: rest)))]
      simp only [optBind_some]
      rw [skipWs_cons_nws ':' _ (by decide)]
      rw [if_pos (by simp : ((':' :: ' ' :: (encVal v ++ (close ++ '}' :: rest))).head? = some ':'))]
      show (do
        let (v2, s4) ← parseVal (' ' :: (encVal v ++ (close ++ '}' :: rest)))
        let s5 := skipWs s4
        if s5.head? = some ',' then do
          let (fvs, r) ← parseFieldsF f s5.tail
          some ((k, v2) :: fvs, r)
        else some ([(k, v2)], s5) : Option (List (String × FVal) × List Char)) = _
      rw [parseVal_enc_sp v _ (close_head_not_digit close rest hclose)]
      simp only [optBind_some]
      rw [skipWs_close close rest hclose]
      rw [if_neg (by simp : ¬((('}' : Char) :: rest).head? = some ','))]
    | cons kv2 fvs3 =>
      rw [encFields_cons]
      rw [show w ++ (jstrEnc k.data ++ ':' :: ' ' ::
          (encVal v ++ (',' :: (pre ++ encFields pre (kv2 :: fvs3))))) ++ close ++ '}' :: rest =
        w ++ (jstrEnc k.data ++ (':' :: ' ' :: (encVal v ++
          (',' :: (pre ++ encFields pre (kv2 :: fvs3) ++ close ++ '}' :: rest))))) by
          simp [List.append_assoc]]
      rw [skipWs_append_ws w _ hw, skipWs_jstrEnc, parseKeyStr_enc k]
      simp only [optBind_some]
      rw [skipWs_cons_nws ':' _ (by decide)]
      rw [if_pos (by simp : ((':' :: ' ' :: (encVal v ++
        (',' :: (pre ++ encFields pre (kv2 :: fvs3) ++ close ++ '}' :: rest)))).head? = some ':'))]
      show (do
        let (v2, s4) ← parseVal (' ' :: (encVal v ++
          (',' :: (pre ++ encFields pre (kv2 :: fvs3) ++ close ++ '}' :: rest))))
        let s5 := skipWs s4
        if s5.head? = some ',' then do
          let (fvs, r) ← parseFieldsF f s5.tail
          some ((k, v2) :: fvs, r)
        else some ([(k, v2)], s5) : Option (List (String × FVal) × List Char)) = _
      rw [parseVal_enc_sp v _ (by intro c hc; simp at hc; subst hc; decide)]
      simp only [optBind_some]
      rw [skipWs_cons_nws ',' _ (by decide)]
      rw [if_pos (by simp : ((',' :: (pre ++ encFields pre (kv2 :: fvs3) ++ close ++
        '}' :: rest)).head? = some ','))]
      show (do
        let (fvs, r) ← parseFieldsF f (pre ++ encFields pre (kv2 :: fvs3) ++ close ++ '}' :: rest)
        some ((k, v) :: fvs, r) : Option (List (String × FVal) × List Char)) = _
      rw [ih f pre rest (by simp) (by simp at hlen ⊢; omega) hpre]
      rfl

theorem optBind_some2 {α β : Type} (a : α) (f : α → Option β) :
    Option.bind (some a) f = f a := rfl

theorem entryFields_length (e : Entry) : (entryFields e).length = 10 := rfl

theorem encFields_length_ge (pre : List Char) :
    ∀ fvs : List (String × FVal), fvs.length ≤ (encFields pre fvs).length := by
  intro fvs
  induction fvs with
  | nil => simp [encFields]
  | cons kv fvs ih =>
    obtain ⟨k, v⟩ := kv
    cases fvs with
    | nil =>
      rw [encFields_single]
      simp [jstrEnc]
    | cons kv2 fvs2 =>
      rw [encFields_cons]
      simp only [List.length_append, List.length_cons]
      simp at ih ⊢
      omega

theorem entryOfFields_entryFields (e : Entry) : entryOfFields (entryFields e) = some e := rfl

theorem parseEntry_enc (e : Entry) (w pre1 pre close rest : List Char)
    (hw : ∀ c ∈ w, isWsC c = true) (hp1 : ∀ c ∈ pre1, isWsC c = true)
    (hp : ∀ c ∈ pre, isWsC c = true) (hc : ∀ c ∈ close, isWsC c = true) :
    parseEntry (w ++ encodeEntryWith pre1 pre close e ++ rest) = some (e, rest) := by
  unfold parseEntry encodeEntryWith
  rw [show w ++ ('{' :: pre1 ++ encFields pre (entryFields e) ++ close ++ ['}']) ++ rest =
      w ++ ('{' :: (pre1 ++ encFields pre (entryFields e) ++ close ++ '}' :: rest)) by
    simp [List.append_assoc]]
  rw [skipWs_append_ws w _ hw, skipWs_cons_nws '{' _ (by decide)]
  rw [if_pos (by simp)]
  have hlen : (entryFields e).length ≤
      (w ++ ('{' :: (pre1 ++ encFields pre (entryFields e) ++ close ++ '}' :: rest))).length := by
    have h10 := encFields_length_ge pre (entryFields e)
    simp only [List.length_append, List.length_cons, entryFields_length] at h10 ⊢
    omega
  show (parseFieldsF
      (w ++ ('{' :: (pre1 ++ encFields pre (entryFields e) ++ close ++ '}' :: rest))).length
      (pre1 ++ encFields pre (entryFields e) ++ close ++ '}' :: rest)).bind _ = _
  rw [parseFieldsF_enc pre close hp hc (entryFields e) _ pre1 rest (by simp [entryFields])
    hlen hp1]
  rw [optBind_some2]
  show (if (skipWs ('}' :: rest)).head? = some '}' then
    (entryOfFields (entryFields e)).map (fun e2 => (e2, (skipWs ('}' :: rest)).tail))
    else none) = _
  rw [skipWs_cons_nws '}' _ (by decide)]
  rw [if_pos (by simp), entryOfFields_entryFields]
  rfl

theorem parseEntriesF_succ (fuel : Nat) (s : List Char) :
    parseEntriesF (fuel + 1) s = (do
      let (e, r) ← parseEntry s
      let r1 := skipWs r
      if r1.head? = some ',' then do
        let (es, r2) ← parseEntriesF fuel r1.tail
        some (e :: es, r2)
      else some ([e], r1)) := by
  rw [parseEntriesF.eq_def]

theorem encItems_single (e : Entry) :
    encItems [e] = ' ' :: ' ' :: encodeEntryIndented e := by
  unfold encItems
  simp

theorem encItems_cons (e e2 : Entry) (es : List Entry) :
    encItems (e :: e2 :: es) =
      ' ' :: ' ' :: (encodeEntryIndented e ++ (',' :: '\n' :: encItems (e2 :: es))) := by
  unfold encItems
  simp
  by_cases hes : es = []
  · simp [hes]
    exact encItems_single e2
  · simp [hes]
    rw [encItems.eq_def]
    cases es with
    | nil => simp at hes
    | cons a l => simp [List.append_assoc]

theorem skipWs_cons_ws (c : Char) (s : List Char) (h : isWsC c = true) :
    skipWs (c :: s) = skipWs s := by
  conv_lhs => rw [skipWs.eq_def]
  simp [h]

theorem encItems_length_ge : ∀ es : List Entry, es.length ≤ (encItems es).length := by
  intro es
  induction es with
  | nil => simp [encItems]
  | cons e es2 ih =>
    cases es2 with
    | nil =>
      rw [encItems_single]
      simp
    | cons e2 es3 =>
      rw [encItems_cons]
      simp only [List.length_append, List.length_cons]
      simp at ih ⊢
      omega

theorem parseEntriesF_enc :
    ∀ (es : List Entry) (fuel : Nat) (w rest : List Char), es ≠ [] → es.length ≤ fuel →
    (∀ c ∈ w, isWsC c = true) →
    parseEntriesF fuel (w ++ encItems es ++ '\n' :: ']' :: rest) = some (es, ']' :: rest) := by
  intro es
  induction es with
  | nil => intro fuel w rest hne; exact absurd rfl hne
  | cons e es2 ih =>
    intro fuel w rest _ hlen hw
    obtain ⟨f, rfl⟩ : ∃ f, fuel = f + 1 := ⟨fuel - 1, by simp at hlen; omega⟩
    rw [parseEntriesF_succ]
    have hw2 : ∀ c ∈ w ++ [' ', ' '], isWsC c = true := by
      intro c hc
      rcases List.mem_append.mp hc with h | h
      · exact hw c h
      · simp at h
        subst h
        decide
    cases es2 with
    | nil =>
      rw [encItems_single]
      rw [show w ++ (' ' :: ' ' :: encodeEntryIndented e) ++ '\n' :: ']' :: rest =
          (w ++ [' ', ' ']) ++ encodeEntryIndented e ++ ('\n' :: ']' :: rest) by
        simp [List.append_assoc]]
      rw [show encodeEntryIndented e =
          encodeEntryWith ('\n' :: [' ', ' ', ' ', ' ']) ('\n' :: [' ', ' ', ' ', ' '])
            ('\n' :: [' ', ' ']) e from rfl]
      rw [parseEntry_enc e (w ++ [' ', ' ']) _ _ _ ('\n' :: ']' :: rest) hw2 (by decide)
        (by decide) (by decide)]
      simp only [optBind_some]
      show (let r1 := skipWs ('\n' :: ']' :: rest)
        if r1.head? = some ',' then do
          let (es, r2) ← parseEntriesF f r1.tail
          some (e :: es, r2)
        else some ([e], r1) : Option (List Entry × List Char)) = _
      rw [skipWs_cons_ws '\n' _ (by decide), skipWs_cons_nws ']' _ (by decide)]
      rw [if_neg (by simp : ¬(((']' : Char) :: rest).head? = some ','))]
    | cons e2 es3 =>
      rw [encItems_cons]
      rw [show w ++ (' ' :: ' ' :: (encodeEntryIndented e ++
            (',' :: '\n' :: encItems (e2 :: es3)))) ++ '\n' :: ']' :: rest =
          (w ++ [' ', ' ']) ++ encodeEntryIndented e ++
            (',' :: '\n' :: (encItems (e2 :: es3) ++ '\n' :: ']' :: rest)) by
        simp [List.append_assoc]]
      rw [show encodeEntryIndented e =
          encodeEntryWith ('\n' :: [' ', ' ', ' ', ' ']) ('\n' :: [' ', ' ', ' ', ' '])
            ('\n' :: [' ', ' ']) e from rfl]
      rw [parseEntry_enc e (w ++ [' ', ' ']) _ _ _
        (',' :: '\n' :: (encItems (e2 :: es3) ++ '\n' :: ']' :: rest)) hw2 (by decide)
        (by decide) (by decide)]
      simp only [optBind_some]
      show (let r1 := skipWs (',' :: '\n' :: (encItems (e2 :: es3) ++ '\n' :: ']' :: rest))
        if r1.head? = some ',' then do
          let (es, r2) ← parseEntriesF f r1.tail
          some (e :: es, r2)
        else some ([e], r1) : Option (List Entry × List Char)) = _
      rw [skipWs_cons_nws ',' _ (by decide)]
      rw [if_pos (by simp : ((',' :: '\n' ::
        (encItems (e2 :: es3) ++ '\n' :: ']' :: rest)).head? = some ','))]
      show (do
        let (es, r2) ← parseEntriesF f ('\n' :: (encItems (e2 :: es3) ++ '\n' :: ']' :: rest))
        some (e :: es, r2) : Option (List Entry × List Char)) = _
      rw [show ('\n' :: (encItems (e2 :: es3) ++ '\n' :: ']' :: rest) : List Char) =
          ['\n'] ++ encItems (e2 :: es3) ++ '\n' :: ']' :: rest by simp]
      rw [ih f ['\n'] rest (by simp) (by simp at hlen ⊢; omega) (by decide)]
      rfl

theorem skipWs_entryWith_head (pre1 pre close : List Char) (e : Entry) (Y : List Char) :
    (skipWs (encodeEntryWith pre1 pre close e ++ Y)).head? = some '{' := by
  unfold encodeEntryWith
  rw [show ('{' :: pre1 ++ encFields pre (entryFields e) ++ close ++ ['}']) ++ Y =
      '{' :: (pre1 ++ encFields pre (entryFields e) ++ close ++ ['}'] ++ Y) by
    simp [List.append_assoc]]
  rw [skipWs_cons_nws '{' _ (by decide)]
  rfl

theorem skipWs_encItems_head (e : Entry) (es : List Entry) (X : List Char) :
    (skipWs (encItems (e :: es) ++ X)).head? = some '{' := by
  cases es with
  | nil =>
    rw [encItems_single]
    rw [show (' ' :: ' ' :: encodeEntryIndented e) ++ X =
        ' ' :: ' ' :: (encodeEntryIndented e ++ X) by simp]
    rw [skipWs_cons_ws ' ' _ (by decide), skipWs_cons_ws ' ' _ (by decide)]
    exact skipWs_entryWith_head _ _ _ e X
  | cons e2 es2 =>
    rw [encItems_cons]
    rw [show (' ' :: ' ' :: (encodeEntryIndented e ++ (',' :: '\n' :: encItems (e2 :: es2)))) ++ X =
        ' ' :: ' ' :: (encodeEntryIndented e ++ ((',' :: '\n' :: encItems (e2 :: es2)) ++ X)) by
      simp]
    rw [skipWs_cons_ws ' ' _ (by decide), skipWs_cons_ws ' ' _ (by decide)]
    exact skipWs_entryWith_head _ _ _ e _

theorem loadJson_save (es : List Entry) : loadJson (save_json es) = some es := by
  cases es with
  | nil => rfl
  | cons e es2 =>
    rw [show save_json (e :: es2) = '[' :: ('\n' :: (encItems (e :: es2) ++ ['\n', ']'])) by
      rw [save_json.eq_def]
      simp]
    unfold loadJson
    rw [skipWs_cons_nws '[' _ (by decide)]
    rw [if_pos (by simp : (('[' :: ('\n' :: (encItems (e :: es2) ++
      ['\n', ']']))).head? = some '['))]
    show (if (skipWs ('\n' :: (encItems (e :: es2) ++ ['\n', ']']))).head? = some ']' then _
      else (parseEntriesF ('[' :: ('\n' :: (encItems (e :: es2) ++ ['\n', ']']))).length
        ('\n' :: (encItems (e :: es2) ++ ['\n', ']']))).bind _) = _
    rw [skipWs_cons_ws '\n' _ (by decide)]
    rw [if_neg (by rw [skipWs_encItems_head e es2 ['\n', ']']]; simp)]
    rw [show ('\n' :: (encItems (e :: es2) ++ ['\n', ']']) : List Char) =
        ['\n'] ++ encItems (e :: es2) ++ '\n' :: ']' :: [] by simp]
    have hfuel : (e :: es2).length ≤
        ('[' :: (['\n'] ++ encItems (e :: es2) ++ '\n' :: ']' :: [])).length := by
      have h := encItems_length_ge (e :: es2)
      simp only [List.length_append, List.length_cons] at h ⊢
      omega
    rw [parseEntriesF_enc (e :: es2) _ ['\n'] [] (by simp) hfuel (by decide)]
    rw [optBind_some2]
    rw [if_pos (by simp : (((']' : Char) :: []).head? = some ']'))]
    rfl

theorem hexDigit_ne_nl : ∀ n < 16, hexDigit n ≠ '\n' := by decide

theorem escChar_ne_nl (c : Char) : ∀ x ∈ escChar c, x ≠ '\n' := by
  intro x hx he
  subst he
  unfold escChar at hx
  by_cases h1 : c = '"'
  · rw [if_pos h1] at hx
    exact absurd hx (by decide)
  rw [if_neg h1] at hx
  by_cases h2 : c = '\\'
  · rw [if_pos h2] at hx
    exact absurd hx (by decide)
  rw [if_neg h2] at hx
  by_cases h3 : c = '\n'
  · rw [if_pos h3] at hx
    exact absurd hx (by decide)
  rw [if_neg h3] at hx
  by_cases h4 : c = '\r'
  · rw [if_pos h4] at hx
    exact absurd hx (by decide)
  rw [if_neg h4] at hx
  by_cases h5 : c = '\t'
  · rw [if_pos h5] at hx
    exact absurd hx (by decide)
  rw [if_neg h5] at hx
  by_cases h6 : c = Char.ofNat 8
  · rw [if_pos h6] at hx
    exact absurd hx (by decide)
  rw [if_neg h6] at hx
  by_cases h7 : c = Char.ofNat 12
  · rw [if_pos h7] at hx
    exact absurd hx (by decide)
  rw [if_neg h7] at hx
  by_cases h8 : c.toNat < 32
  · rw [if_pos h8] at hx
    simp only [List.mem_cons, List.not_mem_nil, or_false] at hx
    rcases hx with h | h | h | h | h | h
    · exact absurd h (by decide)
    · exact absurd h (by decide)
    · exact absurd h (by decide)
    · exact absurd h (by decide)
    · exact hexDigit_ne_nl (c.toNat / 16) (by omega) h.symm
    · exact hexDigit_ne_nl (c.toNat % 16) (by omega) h.symm
  · rw [if_neg h8] at hx
    simp at hx
    exact h3 hx.symm

theorem escString_ne_nl (s : List Char) : ∀ x ∈ escString s, x ≠ '\n' := by
  induction s with
  | nil =>
    intro x hx
    simp [escString] at hx
  | cons c t ih =>
    intro x hx
    unfold escString at hx
    rcases List.mem_append.mp hx with h | h
    · exact escChar_ne_nl c x h
    · exact ih x h

theorem jstrEnc_ne_nl (s : List Char) : ∀ x ∈ jstrEnc s, x ≠ '\n' := by
  intro x hx
  unfold jstrEnc at hx
  rcases List.mem_cons.mp hx with h | h
  · subst h
    decide
  · rcases List.mem_append.mp h with h2 | h2
    · exact escString_ne_nl s x h2
    · simp at h2
      subst h2
      decide

theorem digit_ne_nl (c : Char) (h : isDigitC c = true) : c ≠ '\n' := by
  intro he
  rw [he] at h
  exact absurd h (by decide)

theorem encInt_ne_nl (n : Int) : ∀ x ∈ encInt n, x ≠ '\n' := by
  intro x hx
  unfold encInt at hx
  by_cases h : n < 0
  · rw [if_pos h] at hx
    rcases List.mem_cons.mp hx with h2 | h2
    · subst h2
      decide
    · exact digit_ne_nl x (encNat_digits n.natAbs x h2)
  · rw [if_neg h] at hx
    exact digit_ne_nl x (encNat_digits n.toNat x hx)

theorem encVal_ne_nl (v : FVal) : ∀ x ∈ encVal v, x ≠ '\n' := by
  intro x hx
  cases v with
  | vi n => exact encInt_ne_nl n x hx
  | vs s => exact jstrEnc_ne_nl s.data x hx

theorem encFields_sp_ne_nl : ∀ fvs : List (String × FVal), ∀ x ∈ encFields [' '] fvs, x ≠ '\n' := by
  intro fvs
  induction fvs with
  | nil =>
    intro x hx
    simp [encFields] at hx
  | cons kv fvs2 ih =>
    intro x hx
    obtain ⟨k, v⟩ := kv
    cases fvs2 with
    | nil =>
      rw [encFields_single] at hx
      rcases List.mem_append.mp hx with h | h
      · exact jstrEnc_ne_nl k.data x h
      · rcases List.mem_cons.mp h with h2 | h2
        · subst h2; decide
        rcases List.mem_cons.mp h2 with h3 | h3
        · subst h3; decide
        · exact encVal_ne_nl v x h3
    | cons kv2 fvs3 =>
      rw [encFields_cons] at hx
      rcases List.mem_append.mp hx with h | h
      · exact jstrEnc_ne_nl k.data x h
      rcases List.mem_cons.mp h with h2 | h2
      · subst h2; decide
      rcases List.mem_cons.mp h2 with h3 | h3
      · subst h3; decide
      rcases List.mem_append.mp h3 with h4 | h4
      · exact encVal_ne_nl v x h4
      rcases List.mem_cons.mp h4 with h5 | h5
      · subst h5; decide
      rcases List.mem_append.mp h5 with h6 | h6
      · simp at h6
        subst h6
        decide
      · exact ih x h6

theorem encodeEntryCompact_ne_nl (e : Entry) : ∀ x ∈ encodeEntryCompact e, x ≠ '\n' := by
  intro x hx
  unfold encodeEntryCompact encodeEntryWith at hx
  rcases List.mem_cons.mp hx with h | h
  · subst h; decide
  rcases List.mem_append.mp h with h2 | h2
  · rcases List.mem_append.mp h2 with h3 | h3
    · rcases List.mem_append.mp h3 with h4 | h4
      · simp at h4
      · exact encFields_sp_ne_nl (entryFields e) x h4
    · simp at h3
  · simp at h2
    subst h2
    decide

theorem splitOnChar_cons (sep c : Char) (t : List Char) :
    splitOnChar sep (c :: t) =
      (let r := splitOnChar sep t
       if c = sep then [] :: r else (c :: r.headD []) :: r.tail) := by
  rw [splitOnChar.eq_def]

theorem splitNl_append_cons (rest : List Char) :
    ∀ l : List Char, (∀ c ∈ l, c ≠ '\n') → splitNl (l ++ '\n' :: rest) = l :: splitNl rest := by
  intro l
  induction l with
  | nil =>
    intro _
    show splitOnChar '\n' ('\n' :: rest) = [] :: splitNl rest
    rw [splitOnChar_cons]
    simp [splitNl]
  | cons c t ih =>
    intro h
    have hc : c ≠ '\n' := h c (List.mem_cons_self c t)
    show splitOnChar '\n' (c :: (t ++ '\n' :: rest)) = (c :: t) :: splitNl rest
    rw [splitOnChar_cons]
    rw [show splitOnChar '\n' (t ++ '\n' :: rest) = t :: splitNl rest from
      ih (fun x hx => h x (List.mem_cons_of_mem c hx))]
    rw [if_neg hc]
    simp

theorem splitNl_save_jsonl : ∀ es : List Entry,
    splitNl (save_jsonl es) = es.map encodeEntryCompact ++ [[]] := by
  intro es
  induction es with
  | nil => rfl
  | cons e es2 ih =>
    show splitNl (encodeEntryCompact e ++ '\n' :: save_jsonl es2) = _
    rw [splitNl_append_cons (save_jsonl es2) (encodeEntryCompact e) (encodeEntryCompact_ne_nl e),
      ih]
    simp

theorem pyLines_save_jsonl (es : List Entry) :
    pyLines (save_jsonl es) = es.map encodeEntryCompact := by
  unfold pyLines
  rw [splitNl_save_jsonl]
  simp [List.getLast?_concat, List.dropLast_concat]

theorem decodeJsonLine_enc (e : Entry) : decodeJsonLine (encodeEntryCompact e) = some e := by
  unfold decodeJsonLine
  have h := parseEntry_enc e [] [] [' '] [] [] (by simp) (by simp) (by decide) (by simp)
  rw [List.append_nil, List.nil_append] at h
  rw [show encodeEntryCompact e = encodeEntryWith [] [' '] [] e from rfl, h]
  rfl

theorem mapOpt_of_all {α β : Type} (f : α → Option β) (g : β → α)
    (hfg : ∀ b, f (g b) = some b) : ∀ l : List β, mapOpt f (l.map g) = some l := by
  intro l
  induction l with
  | nil => rfl
  | cons b t ih =>
    show (do
      let x ← f (g b)
      let bs ← mapOpt f (t.map g)
      some (x :: bs) : Option (List β)) = _
    rw [hfg b]
    simp only [optBind_some]
    rw [ih]
    rfl

theorem loadJsonl_save (es : List Entry) : loadJsonl (save_jsonl es) = some es := by
  unfold loadJsonl
  rw [pyLines_save_jsonl]
  exact mapOpt_of_all decodeJsonLine encodeEntryCompact decodeJsonLine_enc es

/-- Claim C5: for every ordered sequence of dataset records, writing it in the
structured-document form (`save_json`, the `indent=2` array) and in the
line-delimited form (`save_jsonl`) and reading both persisted files back
through `load_dataset` succeeds and returns exactly the original record
sequence in both cases — so the two loaded record sets are equal, in
particular under order-insensitive comparison of records keyed by id. -/
theorem c5_roundtrip (es : List Entry) :
    load_dataset "c_programs.json" (save_json es) = some es ∧
    load_dataset "c_programs.jsonl" (save_jsonl es) = some es := by
  constructor
  · unfold load_dataset
    rw [if_neg (by decide)]
    exact loadJson_save es
  · unfold load_dataset
    rw [if_pos (by decide)]
    exact loadJsonl_save es
